import Mathlib

/-!
# GuildMaster substance-mixture engine: shallow embedding

A shallow embedding of the chemistry / crafting core of the GuildMaster
repository (`src/engine/dna.ts`, `src/engine/world/itemAnalyzer.ts`,
`src/engine/systems/crafting.ts`, `src/engine/GameEngine.ts`).

JavaScript objects used as sparse quantity maps (`Mix = Record<string, number>`)
are embedded as association lists `List (String × ℚ)` in insertion order:
`mix[key] = v` updates the first entry with that key in place or appends a new
entry at the end, `delete mix[key]` removes the entry, exactly as a JS object
with unique keys behaves.  JS numbers are embedded as exact rationals `ℚ`.
Mutation is embedded as explicit state passing.
-/

namespace GuildMaster

/-- A mixture: sparse quantity map over substance names (`Mix` in dna.ts). -/
abbrev Mix : Type := List (String × ℚ)

/-- `EPS = 1e-9` from dna.ts (`mkRat` keeps the constant kernel-computable). -/
def EPS : ℚ := mkRat 1 1000000000

/-- `1e-12`, the dead-band used by `mixAdd`. -/
def TINY : ℚ := mkRat 1 1000000000000

/-- `mixGet(mix, key)` — `mix[key] ?? 0`. -/
def mixGet (mix : Mix) (key : String) : ℚ :=
  (List.lookup key mix).getD 0

/-- JS property write `mix[key] = v`: replace the first binding of `key`
in place, or append a fresh binding at the end. -/
def mixSet (mix : Mix) (key : String) (v : ℚ) : Mix :=
  match mix with
  | [] => [(key, v)]
  | (k, w) :: rest =>
    if k = key then (k, v) :: rest else (k, w) :: mixSet rest key v

/-- JS `delete mix[key]`: remove the binding of `key`, if any. -/
def mixErase (mix : Mix) (key : String) : Mix :=
  List.eraseP (fun p => p.1 == key) mix

/-- `mixAdd(mix, key, value)` from dna.ts: in-place accumulation with the
epsilon-cleanup rule (entry removed when the result is ≤ EPS). -/
def mixAdd (mix : Mix) (key : String) (value : ℚ) : Mix :=
  if |value| < TINY then mix
  else
    let next := mixGet mix key + value
    if next ≤ EPS then mixErase mix key
    else mixSet mix key next

/-- `mixScale(mix, scale)` from dna.ts: scale every entry, dropping results
that are not strictly above EPS. -/
def mixScale (mix : Mix) (scale : ℚ) : Mix :=
  mix.filterMap (fun p => if p.2 * scale > EPS then some (p.1, p.2 * scale) else none)

/-- `mixMerge(base, delta)` from dna.ts: additively apply every entry of
`delta` to a copy of `base` via `mixAdd`. -/
def mixMerge (base : Mix) (delta : Mix) : Mix :=
  delta.foldl (fun acc p => mixAdd acc p.1 p.2) base

/-- `mixTotal(mix)` from dna.ts. -/
def mixTotal (mix : Mix) : ℚ :=
  (mix.map Prod.snd).sum

/-- `clamp(x, lo, hi)` from dna.ts. -/
def clamp (x lo hi : ℚ) : ℚ :=
  max lo (min hi x)

/-! ## Basic membership lemmas for the mix operations -/

theorem mem_mixSet {mix : Mix} {key : String} {v : ℚ} {p : String × ℚ}
    (hp : p ∈ mixSet mix key v) : p = (key, v) ∨ p ∈ mix := by
  induction mix with
  | nil =>
    simp only [mixSet, List.mem_singleton] at hp
    exact Or.inl hp
  | cons q rest ih =>
    obtain ⟨k, w⟩ := q
    simp only [mixSet] at hp
    by_cases hk : k = key
    · simp only [hk, if_pos rfl] at hp
      rcases List.mem_cons.mp hp with h | h
      · exact Or.inl (by simpa [hk] using h)
      · exact Or.inr (List.mem_cons_of_mem _ h)
    · simp only [if_neg hk] at hp
      rcases List.mem_cons.mp hp with h | h
      · exact Or.inr (List.mem_cons.mpr (Or.inl h))
      · rcases ih h with h' | h'
        · exact Or.inl h'
        · exact Or.inr (List.mem_cons_of_mem _ h')

theorem mem_mixErase {mix : Mix} {key : String} {p : String × ℚ}
    (hp : p ∈ mixErase mix key) : p ∈ mix :=
  (List.eraseP_sublist mix).mem hp

theorem mem_mixAdd {mix : Mix} {key : String} {v : ℚ} {p : String × ℚ}
    (hp : p ∈ mixAdd mix key v) : p = (key, mixGet mix key + v) ∨ p ∈ mix := by
  unfold mixAdd at hp
  by_cases habs : |v| < TINY
  · exact Or.inr (by simpa [habs] using hp)
  · simp only [if_neg habs] at hp
    by_cases hle : mixGet mix key + v ≤ EPS
    · exact Or.inr (mem_mixErase (by simpa [hle] using hp))
    · rcases mem_mixSet (by simpa [hle] using hp) with h | h
      · exact Or.inl h
      · exact Or.inr h

theorem EPS_pos : (0 : ℚ) < EPS := by decide

theorem EPS_div : EPS = 1 / 1000000000 := by
  rw [EPS, Rat.mkRat_eq_div]; norm_num

theorem TINY_div : TINY = 1 / 1000000000000 := by
  rw [TINY, Rat.mkRat_eq_div]; norm_num

/-- `mixAdd` keeps every surviving entry strictly above EPS, provided the
starting entries were strictly above EPS. -/
theorem mixAdd_eps_invariant {mix : Mix} (h : ∀ p ∈ mix, EPS < p.2)
    (key : String) (v : ℚ) : ∀ p ∈ mixAdd mix key v, EPS < p.2 := by
  intro p hp
  rcases mem_mixAdd hp with heq | hmem
  · subst heq
    unfold mixAdd at hp
    by_cases habs : |v| < TINY
    · simp only [if_pos habs] at hp
      exact h _ hp
    · simp only [if_neg habs] at hp
      by_cases hle : mixGet mix key + v ≤ EPS
      · exact absurd (mem_mixErase (by simpa [hle] using hp)) (by
          intro hmem
          have := h _ hmem
          simp only at this
          exact absurd hle (not_le.mpr this))
      · exact not_le.mp hle
  · exact h _ hmem

/-- `mixScale` keeps every entry strictly above EPS, unconditionally. -/
theorem mixScale_eps_invariant (mix : Mix) (scale : ℚ) :
    ∀ p ∈ mixScale mix scale, EPS < p.2 := by
  intro p hp
  simp only [mixScale, List.mem_filterMap] at hp
  obtain ⟨q, _, hq⟩ := hp
  by_cases hgt : q.2 * scale > EPS
  · simp only [if_pos hgt, Option.some.injEq] at hq
    subst hq
    exact hgt
  · simp [if_neg hgt] at hq

/-- `mixMerge` keeps every entry strictly above EPS, provided the base
entries were strictly above EPS. -/
theorem mixMerge_eps_invariant {base : Mix} (h : ∀ p ∈ base, EPS < p.2)
    (delta : Mix) : ∀ p ∈ mixMerge base delta, EPS < p.2 := by
  unfold mixMerge
  induction delta generalizing base with
  | nil => exact h
  | cons q rest ih =>
    simp only [List.foldl_cons]
    exact ih (mixAdd_eps_invariant h q.1 q.2)

/-! ## Reaction system (dna.ts) -/

/-- `ReactionContext` from dna.ts.  Optional JS fields are `Option`s; the
free-form `tags` record is an association list like `Mix`. -/
structure ReactionContext where
  mix : Mix
  temperature : Option ℚ := none
  pH : Option ℚ := none
  catalysts : Option Mix := none
  tags : Option (List (String × ℚ)) := none

/-- `ReactionRule` from dna.ts; `condition` defaults to the constant 1. -/
structure ReactionRule where
  inputs : Mix
  outputs : Mix
  rate : ℚ
  condition : ReactionContext → ℚ := fun _ => 1

/-- The list of `available / required` ratios over all inputs with positive
required quantity (the loop at dna.ts:85-89). -/
def limitRatios (inputs : Mix) (mix : Mix) : List ℚ :=
  inputs.filterMap (fun p => if 0 < p.2 then some (mixGet mix p.1 / p.2) else none)

/-- Fold of `Math.min` starting from `+∞`: `none` encodes the infinite
starting value surviving an empty ratio list (then `Number.isFinite(limit)`
is false and the rule aborts). -/
def listMin : List ℚ → Option ℚ
  | [] => none
  | x :: xs => some (xs.foldl min x)

/-- The `limit` computed by `ReactionRule.apply` (dna.ts:84-89), `none`
meaning `+∞`. -/
def ReactionRule.limit (r : ReactionRule) (mix : Mix) : Option ℚ :=
  listMin (limitRatios r.inputs mix)

/-- The mixture produced by `ReactionRule.apply(ctx, dt)` (dna.ts:80-102);
the in-place mutation of `ctx.mix` is embedded by returning the new mixture. -/
def ReactionRule.applyMix (r : ReactionRule) (ctx : ReactionContext) (dt : ℚ) : Mix :=
  let cond := clamp (r.condition ctx) 0 3
  if cond ≤ 0 then ctx.mix
  else
    match r.limit ctx.mix with
    | none => ctx.mix
    | some limit =>
      if limit ≤ 0 then ctx.mix
      else
        let extent := r.rate * dt * cond * limit
        if extent ≤ 0 then ctx.mix
        else
          let afterInputs := r.inputs.foldl (fun acc p => mixAdd acc p.1 (-p.2 * extent)) ctx.mix
          r.outputs.foldl (fun acc p => mixAdd acc p.1 (p.2 * extent)) afterInputs

/-- `ReactionRule.apply` as a context transformer. -/
def ReactionRule.apply (r : ReactionRule) (ctx : ReactionContext) (dt : ℚ) : ReactionContext :=
  { ctx with mix := r.applyMix ctx dt }

/-- Options record accepted by `runReactor` (dna.ts:240). -/
structure ReactorOptions where
  temperature : Option ℚ := none
  catalysts : Option Mix := none
  tags : Option (List (String × ℚ)) := none
  steps : Option ℕ := none
  dt : Option ℚ := none

/-- One reactor step: apply the full ordered rule list once (dna.ts:254-256). -/
def applyRules (reactions : List ReactionRule) (ctx : ReactionContext) (dt : ℚ) :
    ReactionContext :=
  reactions.foldl (fun c r => r.apply c dt) ctx

/-- The `for (let i = 0; i < steps; i++)` loop of `runReactor`. -/
def iterCtx (reactions : List ReactionRule) (dt : ℚ) (steps : ℕ) (ctx : ReactionContext) :
    ReactionContext :=
  Nat.rec ctx (fun _ c => applyRules reactions c dt) steps

/-- `runReactor(itemMix, options, reactions)` from dna.ts:238-260, value
semantics: the context starts from a copy of `itemMix`. -/
def runReactor (itemMix : Mix) (options : ReactorOptions) (reactions : List ReactionRule) :
    Mix :=
  let ctx : ReactionContext :=
    { mix := itemMix
      temperature := options.temperature
      catalysts := options.catalysts
      tags := options.tags }
  let steps := options.steps.getD 10
  let dt := options.dt.getD 1
  (iterCtx reactions dt steps ctx).mix

/-! ## C1: applying a rule never leaves a non-positive quantity -/

theorem mixAdd_pos_invariant {mix : Mix} (h : ∀ p ∈ mix, 0 < p.2)
    (key : String) (v : ℚ) : ∀ p ∈ mixAdd mix key v, 0 < p.2 := by
  intro p hp
  unfold mixAdd at hp
  by_cases habs : |v| < TINY
  · exact h _ (by simpa [habs] using hp)
  · simp only [if_neg habs] at hp
    by_cases hle : mixGet mix key + v ≤ EPS
    · exact h _ (mem_mixErase (by simpa [hle] using hp))
    · rcases mem_mixSet (by simpa [hle] using hp) with heq | hmem
      · subst heq
        exact lt_trans EPS_pos (not_le.mp hle)
      · exact h _ hmem

theorem foldl_mixAdd_pos_invariant {mix : Mix} (h : ∀ p ∈ mix, 0 < p.2)
    (l : List (String × ℚ)) (f : String × ℚ → ℚ) :
    ∀ p ∈ l.foldl (fun acc q => mixAdd acc q.1 (f q)) mix, 0 < p.2 := by
  induction l generalizing mix with
  | nil => exact h
  | cons q rest ih =>
    simp only [List.foldl_cons]
    exact ih (mixAdd_pos_invariant h q.1 (f q))

/-- C1.  For every reaction rule, starting mixture with strictly positive
entries, `dt`, rate and condition result, `ReactionRule.apply` leaves every
entry still present in the context mixture strictly positive; in particular no
required input is ever driven negative (or to zero) in the surviving mixture. -/
theorem reactionRule_apply_preserves_positivity
    (r : ReactionRule) (ctx : ReactionContext) (dt : ℚ)
    (h : ∀ p ∈ ctx.mix, 0 < p.2) :
    ∀ p ∈ (r.apply ctx dt).mix, 0 < p.2 := by
  unfold ReactionRule.apply ReactionRule.applyMix
  by_cases hcond : clamp (r.condition ctx) 0 3 ≤ 0
  · simpa [hcond] using h
  · simp only [if_neg hcond]
    match hl : r.limit ctx.mix with
    | none => simpa using h
    | some limit =>
      by_cases hlim : limit ≤ 0
      · simpa [hlim] using h
      · simp only [if_neg hlim]
        by_cases hext : r.rate * dt * clamp (r.condition ctx) 0 3 * limit ≤ 0
        · simpa [hext] using h
        · simp only [if_neg hext]
          exact foldl_mixAdd_pos_invariant
            (foldl_mixAdd_pos_invariant h r.inputs _) r.outputs _

/-- C1 witness: a concrete rule applied to a concrete positive mixture keeps
the surviving `GLU` entry strictly positive. -/
theorem reactionRule_apply_preserves_positivity_witness :
    (0 : ℚ) < ((("GLU", (2:ℚ)) : String × ℚ)).2 :=
  reactionRule_apply_preserves_positivity
    { inputs := [], outputs := [], rate := 1, condition := fun _ => 0 }
    { mix := [("GLU", 2)] } 1 (by decide) ("GLU", 2) (by
      have happ : ReactionRule.applyMix
          { inputs := [], outputs := [], rate := 1, condition := fun _ => 0 }
          { mix := [("GLU", 2)] } 1 = [("GLU", 2)] := by
        simp only [ReactionRule.applyMix]
        rw [show clamp (0:ℚ) 0 3 = 0 from by
          rw [clamp, min_eq_right (by norm_num : (0:ℚ) ≤ 3), max_self]]
        rw [if_pos (le_refl (0:ℚ))]
      show ("GLU", (2:ℚ)) ∈ ReactionRule.applyMix
        { inputs := [], outputs := [], rate := 1, condition := fun _ => 0 }
        { mix := [("GLU", 2)] } 1
      rw [happ]
      exact List.mem_singleton.mpr rfl)

/-! ## C2: the scaling factor is the Liebig minimum of available/required -/

theorem mixGet_nonneg {mix : Mix} (h : ∀ p ∈ mix, 0 ≤ p.2) (key : String) :
    0 ≤ mixGet mix key := by
  induction mix with
  | nil => simp [mixGet, List.lookup]
  | cons q rest ih =>
    obtain ⟨k, v⟩ := q
    by_cases hk : key = k
    · have : mixGet ((k, v) :: rest) key = v := by
        simp [mixGet, List.lookup, hk]
      rw [this]
      exact h (k, v) (List.mem_cons_self _ _)
    · have hbeq : (key == k) = false := beq_eq_false_iff_ne.mpr hk
      have : mixGet ((k, v) :: rest) key = mixGet rest key := by
        simp [mixGet, List.lookup, hbeq]
      rw [this]
      exact ih (fun p hp => h p (List.mem_cons_of_mem _ hp))

theorem foldl_min_le_start (xs : List ℚ) (x : ℚ) : xs.foldl min x ≤ x := by
  induction xs generalizing x with
  | nil => simp
  | cons a rest ih =>
    simp only [List.foldl_cons]
    exact le_trans (ih (min x a)) (min_le_left _ _)

theorem foldl_min_le_mem (xs : List ℚ) (x : ℚ) :
    ∀ y ∈ xs, xs.foldl min x ≤ y := by
  induction xs generalizing x with
  | nil => intro y hy; cases hy
  | cons a rest ih =>
    intro y hy
    simp only [List.foldl_cons]
    rcases List.mem_cons.mp hy with rfl | hy'
    · exact le_trans (foldl_min_le_start rest (min x y)) (min_le_right _ _)
    · exact ih (min x a) y hy'

theorem foldl_min_mem (xs : List ℚ) (x : ℚ) : xs.foldl min x ∈ x :: xs := by
  induction xs generalizing x with
  | nil => simp
  | cons a rest ih =>
    simp only [List.foldl_cons]
    rcases List.mem_cons.mp (ih (min x a)) with heq | hmem
    · rcases min_choice x a with hx | ha
      · exact List.mem_cons.mpr (Or.inl (heq.trans hx))
      · exact List.mem_cons.mpr (Or.inr (List.mem_cons.mpr (Or.inl (heq.trans ha))))
    · exact List.mem_cons.mpr (Or.inr (List.mem_cons.mpr (Or.inr hmem)))

theorem listMin_spec {l : List ℚ} {m : ℚ} (h : listMin l = some m) :
    m ∈ l ∧ ∀ y ∈ l, m ≤ y := by
  cases l with
  | nil => cases h
  | cons x xs =>
    simp only [listMin, Option.some.injEq] at h
    subst h
    refine ⟨foldl_min_mem xs x, ?_⟩
    intro y hy
    rcases List.mem_cons.mp hy with rfl | hy'
    · exact foldl_min_le_start xs y
    · exact foldl_min_le_mem xs x y hy'

theorem limitRatios_nonneg {inputs mix : Mix} (h : ∀ p ∈ mix, 0 ≤ p.2) :
    ∀ x ∈ limitRatios inputs mix, 0 ≤ x := by
  intro x hx
  simp only [limitRatios, List.mem_filterMap] at hx
  obtain ⟨p, _, hp⟩ := hx
  by_cases hpos : 0 < p.2
  · simp only [if_pos hpos, Option.some.injEq] at hp
    subst hp
    exact div_nonneg (mixGet_nonneg h p.1) (le_of_lt hpos)
  · simp [if_neg hpos] at hp

/-- A zero ratio belongs to `limitRatios` whenever some required input with
positive requirement is entirely absent. -/
theorem zero_mem_limitRatios {inputs mix : Mix} {p : String × ℚ}
    (hmem : p ∈ inputs) (hpos : 0 < p.2) (habs : mixGet mix p.1 = 0) :
    (0 : ℚ) ∈ limitRatios inputs mix := by
  simp only [limitRatios, List.mem_filterMap]
  exact ⟨p, hmem, by simp [if_pos hpos, habs]⟩

/-- C2.  The scaling factor `limit` in `ReactionRule.apply` is the minimum of
`available / required` over all inputs with positive required quantity; if a
required substance is entirely absent from a non-negative mixture, `limit` is
0 and the rule leaves the mixture unchanged; and for inputs `{A:2, B:1}`
against `{A:2, B:10}` the limit equals 1, not 10. -/
theorem reactionRule_limit_spec (r : ReactionRule) (ctx : ReactionContext) (dt l : ℚ) :
    (r.limit ctx.mix = some l →
      l ∈ limitRatios r.inputs ctx.mix ∧ ∀ y ∈ limitRatios r.inputs ctx.mix, l ≤ y) ∧
    ((∀ p ∈ ctx.mix, 0 ≤ p.2) → ∀ p ∈ r.inputs, 0 < p.2 → mixGet ctx.mix p.1 = 0 →
      r.limit ctx.mix = some 0 ∧ r.applyMix ctx dt = ctx.mix) ∧
    ReactionRule.limit { inputs := [("A", 2), ("B", 1)], outputs := [], rate := 1 }
      [("A", 2), ("B", 10)] = some 1 := by
  refine ⟨fun h => listMin_spec h, fun hnn p hmem hpos habs => ?_, by
    show listMin (limitRatios ([("A", 2), ("B", 1)] : Mix) [("A", 2), ("B", 10)]) = some 1
    have h1 : limitRatios ([("A", 2), ("B", 1)] : Mix) [("A", 2), ("B", 10)] = [1, 10] := by
      simp only [limitRatios, List.filterMap_cons, List.filterMap_nil, mixGet, List.lookup,
        (by decide : (("A" : String) == "A") = true),
        (by decide : (("B" : String) == "A") = false),
        (by decide : (("B" : String) == "B") = true)]
      norm_num
    rw [h1]
    simp only [listMin, List.foldl_cons, List.foldl_nil, Option.some.injEq]
    norm_num [min_def]⟩
  have hzero : (0 : ℚ) ∈ limitRatios r.inputs ctx.mix :=
    zero_mem_limitRatios hmem hpos habs
  obtain ⟨x, xs, hcons⟩ : ∃ x xs, limitRatios r.inputs ctx.mix = x :: xs := by
    cases hr : limitRatios r.inputs ctx.mix with
    | nil => rw [hr] at hzero; cases hzero
    | cons x xs => exact ⟨x, xs, rfl⟩
  obtain ⟨m, hm⟩ : ∃ m, r.limit ctx.mix = some m := by
    unfold ReactionRule.limit
    rw [hcons]
    exact ⟨_, rfl⟩
  obtain ⟨hmmem, hmle⟩ := listMin_spec (by simpa [ReactionRule.limit] using hm)
  have hm0 : m = 0 :=
    le_antisymm (hmle 0 hzero) (limitRatios_nonneg hnn m hmmem)
  subst hm0
  refine ⟨hm, ?_⟩
  unfold ReactionRule.applyMix
  by_cases hcond : clamp (r.condition ctx) 0 3 ≤ 0
  · simp [hcond]
  · simp [hcond, hm]

/-- C2 witness: a rule requiring an absent substance has limit 0 and no
effect on a concrete mixture. -/
theorem reactionRule_limit_spec_witness :
    ReactionRule.applyMix { inputs := [("A", 1)], outputs := [], rate := 1 }
      { mix := [("B", 1)] } 1 = [("B", 1)] :=
  ((reactionRule_limit_spec { inputs := [("A", 1)], outputs := [], rate := 1 }
      { mix := [("B", 1)] } 1 0).2.1 (by decide) ("A", 1)
      (by decide) (by decide) (by decide)).2

/-! ## C5: epsilon-cleanup invariant for add / scale / merge -/

/-- C5.  Starting from a mixture whose entries are all strictly above EPS,
any single `mixAdd` (any key, any delta), any `mixScale` (any factor) and any
`mixMerge` (any delta mixture) produce a mixture with no entry ≤ EPS. -/
theorem mixture_eps_invariant (mix : Mix) (h : ∀ p ∈ mix, EPS < p.2) :
    (∀ key v, ∀ p ∈ mixAdd mix key v, EPS < p.2) ∧
    (∀ c, ∀ p ∈ mixScale mix c, EPS < p.2) ∧
    (∀ delta, ∀ p ∈ mixMerge mix delta, EPS < p.2) :=
  ⟨fun key v => mixAdd_eps_invariant h key v,
   fun c => mixScale_eps_invariant mix c,
   fun delta => mixMerge_eps_invariant h delta⟩

/-- C5 witness: instantiated on the concrete mixture `{A:1}` scaled by 1, the
surviving entry `("A", 1)` is strictly above EPS. -/
theorem mixture_eps_invariant_witness : EPS < ((("A", (1 : ℚ)) : String × ℚ)).2 :=
  (mixture_eps_invariant [("A", 1)] (by decide)).2.1 1 ("A", 1) (by
    norm_num [mixScale, EPS_div, List.filterMap_cons, List.filterMap_nil])

/-! ## C6: the macro snapshot is pure and bounded in [0,1] (dna.ts:276-311) -/

/-- `MacroSnapshot` from dna.ts. -/
structure MacroSnapshot where
  energy : ℚ
  pain : ℚ
  mood : ℚ
  focus : ℚ
  hungerSignal : ℚ
  thirstSignal : ℚ
  stress : ℚ
deriving DecidableEq

/-- `deriveMacroSnapshot(body)` from dna.ts:276-311. -/
def deriveMacroSnapshot (body : Mix) : MacroSnapshot :=
  let glu := mixGet body "GLU"
  let atp := mixGet body "ATP"
  let ser := mixGet body "SER"
  let water := mixGet body "H2O"
  let o2 := mixGet body "O2"
  let oxidativeStress := mixGet body "OX_STRESS" + (1/2) * mixGet body "OXIDIZER"
  let hydrationLoad := max 0 (3/10 - water) + mixGet body "DEHYDRATION_SIGNAL"
  let oxygenDebt := max 0 (3/10 - o2)
  let phStress := max 0
    (mixGet body "PH_ACID" + mixGet body "PH_BASE" + mixGet body "PH_SHIFT" -
      mixGet body "PH_BUFFER")
  let chelationStress := mixGet body "CHELATED_METAL"
  let stressChems :=
    mixGet body "STRESS" + mixGet body "CORT" + mixGet body "ADREN" +
      oxidativeStress + phStress + hydrationLoad + chelationStress
  let dopa := mixGet body "DOPA"
  { energy := clamp (1/2 + ((5/100) * atp + (2/100) * glu - (4/100) * oxygenDebt -
      (4/100) * phStress - (3/100) * hydrationLoad)) 0 1
    pain := clamp ((5/100) * oxidativeStress + (4/100) * phStress +
      (4/100) * hydrationLoad + (2/100) * chelationStress) 0 1
    mood := clamp (1/2 + ((4/100) * ser - (2/100) * stressChems - (3/100) * phStress -
      (2/100) * hydrationLoad)) 0 1
    focus := clamp (1/2 + ((4/100) * dopa - (3/100) * stressChems)) 0 1
    hungerSignal := clamp (1/2 + ((3/100) - (5/100) * glu - (4/100) * atp)) 0 1
    thirstSignal := clamp (1/2 + ((3/100) + (5/100) * hydrationLoad - (8/100) * water)) 0 1
    stress := clamp stressChems 0 1 }

theorem clamp01_bounds (x : ℚ) : 0 ≤ clamp x 0 1 ∧ clamp x 0 1 ≤ 1 :=
  ⟨le_max_left _ _, max_le (by norm_num) (min_le_left _ _)⟩

/-- C6.  `deriveMacroSnapshot` is a pure bounded function of the body mixture:
every one of the seven fields lies within `[0,1]` for every body mixture, and
two calls on the same mixture agree. -/
theorem deriveMacroSnapshot_bounded_and_pure (body : Mix) :
    (0 ≤ (deriveMacroSnapshot body).energy ∧ (deriveMacroSnapshot body).energy ≤ 1) ∧
    (0 ≤ (deriveMacroSnapshot body).pain ∧ (deriveMacroSnapshot body).pain ≤ 1) ∧
    (0 ≤ (deriveMacroSnapshot body).mood ∧ (deriveMacroSnapshot body).mood ≤ 1) ∧
    (0 ≤ (deriveMacroSnapshot body).focus ∧ (deriveMacroSnapshot body).focus ≤ 1) ∧
    (0 ≤ (deriveMacroSnapshot body).hungerSignal ∧ (deriveMacroSnapshot body).hungerSignal ≤ 1) ∧
    (0 ≤ (deriveMacroSnapshot body).thirstSignal ∧ (deriveMacroSnapshot body).thirstSignal ≤ 1) ∧
    (0 ≤ (deriveMacroSnapshot body).stress ∧ (deriveMacroSnapshot body).stress ≤ 1) ∧
    deriveMacroSnapshot body = deriveMacroSnapshot body :=
  ⟨clamp01_bounds _, clamp01_bounds _, clamp01_bounds _, clamp01_bounds _,
   clamp01_bounds _, clamp01_bounds _, clamp01_bounds _, rfl⟩

/-! ## C3: the reactor is deterministic and works on a private copy

To make the in-place mutation of `ctx.mix` visible, the reactor is re-run in
an explicit store semantics: a heap of `Mix` objects indexed by address.
`runReactor` copies the caller's mixture (`{ ...itemMix }`) into a fresh cell
and only ever writes that cell. -/

/-- A heap of JS mixture objects; addresses are indices. -/
abbrev Store : Type := List Mix

def storeGet (s : Store) (a : ℕ) : Mix := s.getD a []

def storeSet (s : Store) (a : ℕ) (m : Mix) : Store := s.set a m

/-- The reaction context whose `mix` field lives at heap address `a`. -/
def ctxAt (s : Store) (a : ℕ) (options : ReactorOptions) : ReactionContext :=
  { mix := storeGet s a
    temperature := options.temperature
    catalysts := options.catalysts
    tags := options.tags }

/-- `reaction.apply(ctx, dt)` with `ctx.mix` mutated in place at address `a`. -/
def applyStoreRule (options : ReactorOptions) (dt : ℚ) (a : ℕ) (s : Store)
    (r : ReactionRule) : Store :=
  storeSet s a (r.applyMix (ctxAt s a options) dt)

/-- The inner rule loop of `runReactor`, in store semantics. -/
def applyRulesStore (reactions : List ReactionRule) (options : ReactorOptions) (dt : ℚ)
    (a : ℕ) (s : Store) : Store :=
  reactions.foldl (applyStoreRule options dt a) s

/-- The step loop of `runReactor`, in store semantics. -/
def iterStore (reactions : List ReactionRule) (options : ReactorOptions) (dt : ℚ)
    (a : ℕ) (steps : ℕ) (s : Store) : Store :=
  Nat.rec s (fun _ acc => applyRulesStore reactions options dt a acc) steps

/-- `runReactor` in store semantics: allocate a fresh cell holding a copy of
the mixture at `addr`, run the step loop against the fresh cell, and return
the final store together with the fresh address. -/
def runReactorStore (s : Store) (addr : ℕ) (options : ReactorOptions)
    (reactions : List ReactionRule) : Store × ℕ :=
  let fresh := s.length
  let s1 := s ++ [storeGet s addr]
  (iterStore reactions options (options.dt.getD 1) fresh (options.steps.getD 10) s1, fresh)

theorem storeGet_set_ne {s : Store} {a b : ℕ} {m : Mix} (h : a ≠ b) :
    storeGet (storeSet s a m) b = storeGet s b := by
  simp [storeGet, storeSet, List.getD_eq_getElem?_getD, List.getElem?_set_ne h]

theorem storeGet_set_self {s : Store} {a : ℕ} {m : Mix} (h : a < s.length) :
    storeGet (storeSet s a m) a = m := by
  simp [storeGet, storeSet, List.getD_eq_getElem?_getD, List.getElem?_set_self', h]

theorem storeSet_length (s : Store) (a : ℕ) (m : Mix) :
    (storeSet s a m).length = s.length := by
  simp [storeSet]

/-- A pure `ReactionRule.apply` only changes the `mix` field. -/
theorem ReactionRule.apply_fields (r : ReactionRule) (ctx : ReactionContext) (dt : ℚ) :
    r.apply ctx dt =
      { mix := r.applyMix ctx dt
        temperature := ctx.temperature
        pH := ctx.pH
        catalysts := ctx.catalysts
        tags := ctx.tags } := rfl

/-- The pure rule loop only changes the `mix` field of the context. -/
theorem applyRules_fields (reactions : List ReactionRule) (c : ReactionContext) (dt : ℚ) :
    applyRules reactions c dt =
      { mix := (applyRules reactions c dt).mix
        temperature := c.temperature
        pH := c.pH
        catalysts := c.catalysts
        tags := c.tags } := by
  induction reactions generalizing c with
  | nil => rfl
  | cons r rest ih =>
    have h : applyRules (r :: rest) c dt = applyRules rest (r.apply c dt) dt := rfl
    rw [h, ih (r.apply c dt)]
    rfl

/-- The pure step loop only changes the `mix` field of the context. -/
theorem iterCtx_fields (reactions : List ReactionRule) (dt : ℚ) (k : ℕ)
    (ctx : ReactionContext) :
    iterCtx reactions dt k ctx =
      { mix := (iterCtx reactions dt k ctx).mix
        temperature := ctx.temperature
        pH := ctx.pH
        catalysts := ctx.catalysts
        tags := ctx.tags } := by
  induction k with
  | zero => rfl
  | succ j ihj =>
    have h1 : iterCtx reactions dt (j + 1) ctx =
        applyRules reactions (iterCtx reactions dt j ctx) dt := rfl
    calc iterCtx reactions dt (j + 1) ctx
        = applyRules reactions (iterCtx reactions dt j ctx) dt := h1
      _ = { mix := (applyRules reactions (iterCtx reactions dt j ctx) dt).mix
            temperature := (iterCtx reactions dt j ctx).temperature
            pH := (iterCtx reactions dt j ctx).pH
            catalysts := (iterCtx reactions dt j ctx).catalysts
            tags := (iterCtx reactions dt j ctx).tags } :=
        applyRules_fields reactions (iterCtx reactions dt j ctx) dt
      _ = { mix := (iterCtx reactions dt (j + 1) ctx).mix
            temperature := ctx.temperature
            pH := ctx.pH
            catalysts := ctx.catalysts
            tags := ctx.tags } := by
          have ht : (iterCtx reactions dt j ctx).temperature = ctx.temperature := by rw [ihj]
          have hp : (iterCtx reactions dt j ctx).pH = ctx.pH := by rw [ihj]
          have hc : (iterCtx reactions dt j ctx).catalysts = ctx.catalysts := by rw [ihj]
          have htg : (iterCtx reactions dt j ctx).tags = ctx.tags := by rw [ihj]
          rw [ht, hp, hc, htg,
            show (applyRules reactions (iterCtx reactions dt j ctx) dt).mix =
              (iterCtx reactions dt (j + 1) ctx).mix from
                congrArg ReactionContext.mix h1.symm]

/-- The store-semantics rule loop at address `a` agrees with the pure rule
loop on the cell at `a`, leaves every other cell untouched, and preserves the
heap size. -/
theorem applyRulesStore_spec (reactions : List ReactionRule) (options : ReactorOptions)
    (dt : ℚ) (a : ℕ) (s : Store) (ha : a < s.length) :
    (applyRulesStore reactions options dt a s).length = s.length ∧
    (∀ b, b ≠ a → storeGet (applyRulesStore reactions options dt a s) b = storeGet s b) ∧
    storeGet (applyRulesStore reactions options dt a s) a =
      (applyRules reactions (ctxAt s a options) dt).mix := by
  induction reactions generalizing s with
  | nil => exact ⟨rfl, fun b _ => rfl, rfl⟩
  | cons r rest ih =>
    have hstep : applyRulesStore (r :: rest) options dt a s =
        applyRulesStore rest options dt a (applyStoreRule options dt a s r) := rfl
    have hlen1 : (applyStoreRule options dt a s r).length = s.length :=
      storeSet_length _ _ _
    have ha1 : a < (applyStoreRule options dt a s r).length := by rw [hlen1]; exact ha
    obtain ⟨ihlen, ihother, ihat⟩ := ih (applyStoreRule options dt a s r) ha1
    refine ⟨by rw [hstep, ihlen, hlen1], ?_, ?_⟩
    · intro b hb
      rw [hstep, ihother b hb]
      exact storeGet_set_ne (fun h => hb h.symm)
    · rw [hstep, ihat]
      have hcell : storeGet (applyStoreRule options dt a s r) a =
          r.applyMix (ctxAt s a options) dt := storeGet_set_self ha
      have hctx : ctxAt (applyStoreRule options dt a s r) a options =
          r.apply (ctxAt s a options) dt := by
        rw [ReactionRule.apply_fields]
        simp [ctxAt, hcell]
      rw [hctx]
      rfl

/-- The store-semantics step loop agrees with the pure step loop on the cell
at `a`, leaves every other cell untouched, and preserves the heap size. -/
theorem iterStore_spec (reactions : List ReactionRule) (options : ReactorOptions)
    (dt : ℚ) (a : ℕ) (steps : ℕ) (s : Store) (ha : a < s.length) :
    (iterStore reactions options dt a steps s).length = s.length ∧
    (∀ b, b ≠ a → storeGet (iterStore reactions options dt a steps s) b = storeGet s b) ∧
    storeGet (iterStore reactions options dt a steps s) a =
      (iterCtx reactions dt steps (ctxAt s a options)).mix := by
  induction steps with
  | zero => exact ⟨rfl, fun b _ => rfl, rfl⟩
  | succ n ih =>
    obtain ⟨ihlen, ihother, ihat⟩ := ih
    have ha' : a < (iterStore reactions options dt a n s).length := by rw [ihlen]; exact ha
    obtain ⟨slen, sother, sat⟩ :=
      applyRulesStore_spec reactions options dt a (iterStore reactions options dt a n s) ha'
    have hiter : iterStore reactions options dt a (n + 1) s =
        applyRulesStore reactions options dt a (iterStore reactions options dt a n s) := rfl
    refine ⟨by rw [hiter, slen, ihlen], ?_, ?_⟩
    · intro b hb
      rw [hiter, sother b hb, ihother b hb]
    · rw [hiter, sat]
      have hctx : ctxAt (iterStore reactions options dt a n s) a options =
          { mix := (iterCtx reactions dt n (ctxAt s a options)).mix
            temperature := options.temperature
            catalysts := options.catalysts
            tags := options.tags } := by
        simp [ctxAt, ihat]
      rw [hctx]
      have hgoal : iterCtx reactions dt (n + 1) (ctxAt s a options) =
          applyRules reactions (iterCtx reactions dt n (ctxAt s a options)) dt := rfl
      rw [hgoal, iterCtx_fields reactions dt n (ctxAt s a options)]
      rfl

/-- C3.  `runReactor` works on a private copy and is deterministic: the
caller's mixture cell is bit-identical after the run, the produced mixture is
the pure function `runReactor` of the input mixture and options, and two runs
whose input cells hold identical mixtures return identical output mixtures. -/
theorem runReactor_private_copy_and_deterministic (s : Store) (addr : ℕ)
    (options : ReactorOptions) (reactions : List ReactionRule) (h : addr < s.length) :
    storeGet (runReactorStore s addr options reactions).1 addr = storeGet s addr ∧
    storeGet (runReactorStore s addr options reactions).1
        (runReactorStore s addr options reactions).2 =
      runReactor (storeGet s addr) options reactions ∧
    (∀ (s' : Store) (addr' : ℕ), addr' < s'.length →
      storeGet s' addr' = storeGet s addr →
      storeGet (runReactorStore s' addr' options reactions).1
          (runReactorStore s' addr' options reactions).2 =
        storeGet (runReactorStore s addr options reactions).1
          (runReactorStore s addr options reactions).2) := by
  have main : ∀ (t : Store) (b : ℕ), b < t.length →
      storeGet (runReactorStore t b options reactions).1 b = storeGet t b ∧
      storeGet (runReactorStore t b options reactions).1
          (runReactorStore t b options reactions).2 =
        runReactor (storeGet t b) options reactions := by
    intro t b hb
    have hfresh : t.length < (t ++ [storeGet t b]).length := by
      simp
    obtain ⟨_, hother, hat⟩ :=
      iterStore_spec reactions options (options.dt.getD 1) t.length (options.steps.getD 10)
        (t ++ [storeGet t b]) hfresh
    have hbne : b ≠ t.length := Nat.ne_of_lt hb
    have hcopy_b : storeGet (t ++ [storeGet t b]) b = storeGet t b := by
      simp [storeGet, List.getD_eq_getElem?_getD, List.getElem?_append, hb]
    have hcopy_fresh : storeGet (t ++ [storeGet t b]) t.length = storeGet t b := by
      simp [storeGet, List.getD_eq_getElem?_getD]
    constructor
    · show storeGet (iterStore reactions options (options.dt.getD 1) t.length
          (options.steps.getD 10) (t ++ [storeGet t b])) b = storeGet t b
      rw [hother b hbne, hcopy_b]
    · show storeGet (iterStore reactions options (options.dt.getD 1) t.length
          (options.steps.getD 10) (t ++ [storeGet t b])) t.length =
        runReactor (storeGet t b) options reactions
      rw [hat]
      have : ctxAt (t ++ [storeGet t b]) t.length options =
          { mix := storeGet t b
            temperature := options.temperature
            catalysts := options.catalysts
            tags := options.tags } := by
        simp [ctxAt, hcopy_fresh]
      rw [this]
      rfl
  obtain ⟨h1, h2⟩ := main s addr h
  refine ⟨h1, h2, ?_⟩
  intro s' addr' h' heq
  rw [(main s' addr' h').2, heq, h2]

/-- C3 witness: on a concrete one-cell heap, running the reactor leaves the
input cell unchanged. -/
theorem runReactor_private_copy_witness :
    storeGet (runReactorStore [[("H2O", 1)]] 0
        { steps := some 1 } [{ inputs := [], outputs := [], rate := 1 }]).1 0 =
      [("H2O", 1)] :=
  (runReactor_private_copy_and_deterministic [[("H2O", 1)]] 0
      { steps := some 1 } [{ inputs := [], outputs := [], rate := 1 }]
      (by norm_num)).1

/-! ## C4: mixSignature (itemAnalyzer.ts) -/

/-- `normalizeMix(mix)` from itemAnalyzer.ts:10-24: drop entries ≤ EPS,
divide the rest by their total; a total ≤ EPS normalizes to empty. -/
def normalizeMix (mix : Mix) : Mix :=
  let filtered := mix.filter (fun p => EPS < p.2)
  let total := mixTotal filtered
  if total ≤ EPS then [] else filtered.map (fun p => (p.1, p.2 / total))

/-- Zero-padded three-digit rendering of `m % 1000`-style fraction parts. -/
def pad3 (m : ℕ) : String :=
  if m < 10 then "00" ++ toString m
  else if m < 100 then "0" ++ toString m
  else toString m

def fmtFixed3Nat (m : ℕ) : String :=
  toString (m / 1000) ++ "." ++ pad3 (m % 1000)

/-- JS `x.toFixed(3)` for an exact multiple `n / 1000` of `0.001`. -/
def fmtFixed3 (n : ℤ) : String :=
  if n < 0 then "-" ++ fmtFixed3Nat (-n).toNat else fmtFixed3Nat n.toNat

/-- `(Math.round(v * 1000) / 1000).toFixed(3)` from itemAnalyzer.ts:30;
JS `Math.round(x)` is `⌊x + 1/2⌋`. -/
def quantFmt (v : ℚ) : String :=
  fmtFixed3 ⌊v * 1000 + 1/2⌋

/-- Key order used by the `sort(([a], [b]) => a.localeCompare(b))` call:
lexicographic comparison of the substance names. -/
def keyLE (a b : String × ℚ) : Prop := a.1 ≤ b.1

def keyLT (a b : String × ℚ) : Prop := a.1 < b.1

instance : DecidableRel keyLE := fun a b => inferInstanceAs (Decidable (a.1 ≤ b.1))

instance : IsTotal (String × ℚ) keyLE := ⟨fun a b => le_total a.1 b.1⟩

instance : IsTrans (String × ℚ) keyLE := ⟨fun _ _ _ h1 h2 => le_trans h1 h2⟩

instance : IsAntisymm (String × ℚ) keyLT :=
  ⟨fun _ _ h1 h2 => absurd h2 (not_lt.mpr (le_of_lt h1))⟩

/-- `mixSignature(mix)` from itemAnalyzer.ts:26-32: sort the normalized
entries by substance name, render each as `name:quantized`, join with `|`;
the sentinel `"empty"` when there are no parts. -/
def mixSignature (mix : Mix) : String :=
  let normalized := normalizeMix mix
  let parts := (List.insertionSort keyLE normalized).map (fun p => p.1 ++ ":" ++ quantFmt p.2)
  if parts.isEmpty then "empty" else String.intercalate "|" parts

/-- Pointwise scalar multiple `c·mix` of a mixture, as the spec's
"two mixtures that are scalar multiples of each other". -/
def smulMix (c : ℚ) (mix : Mix) : Mix :=
  mix.map (fun p => (p.1, c * p.2))

theorem normalizeMix_perm {m1 m2 : Mix} (h : m1.Perm m2) :
    (normalizeMix m1).Perm (normalizeMix m2) := by
  simp only [normalizeMix]
  have hfil : (m1.filter (fun p => EPS < p.2)).Perm (m2.filter (fun p => EPS < p.2)) :=
    h.filter _
  have htot : mixTotal (m1.filter (fun p => EPS < p.2)) =
      mixTotal (m2.filter (fun p => EPS < p.2)) :=
    (hfil.map Prod.snd).sum_eq
  rw [htot]
  by_cases hle : mixTotal (m2.filter (fun p => EPS < p.2)) ≤ EPS
  · simp [hle]
  · simp only [if_neg hle]
    exact hfil.map _

theorem sorted_keyLE_nodup_pairwise_lt {l : Mix}
    (hs : List.Sorted keyLE l) (hn : (l.map Prod.fst).Nodup) :
    l.Pairwise keyLT := by
  have hne : l.Pairwise (fun a b : String × ℚ => a.1 ≠ b.1) :=
    (List.pairwise_map).mp hn
  exact (hs.and hne).imp (fun h => lt_of_le_of_ne h.1 h.2)

theorem normalizeMix_keys_sublist (m : Mix) :
    ((normalizeMix m).map Prod.fst).Sublist (m.map Prod.fst) := by
  unfold normalizeMix
  by_cases hle : mixTotal (m.filter (fun p => EPS < p.2)) ≤ EPS
  · simp [hle]
  · simp only [if_neg hle]
    have h1 : ((m.filter (fun p => EPS < p.2)).map
        (fun p : String × ℚ => (p.1, p.2 / mixTotal (m.filter (fun p => EPS < p.2))))).map
          Prod.fst = (m.filter (fun p => EPS < p.2)).map Prod.fst := by
      simp [List.map_map, Function.comp]
    rw [h1]
    exact (List.filter_sublist m).map Prod.fst

/-- Signature invariance under re-ordering of entries (unique keys). -/
theorem mixSignature_perm {m1 m2 : Mix} (hperm : m1.Perm m2)
    (hkeys : (m1.map Prod.fst).Nodup) : mixSignature m1 = mixSignature m2 := by
  have hp : (normalizeMix m1).Perm (normalizeMix m2) := normalizeMix_perm hperm
  have hk1 : ((normalizeMix m1).map Prod.fst).Nodup :=
    hkeys.sublist (normalizeMix_keys_sublist m1)
  have hps : (List.insertionSort keyLE (normalizeMix m1)).Perm
      (List.insertionSort keyLE (normalizeMix m2)) :=
    (List.perm_insertionSort keyLE (normalizeMix m1)).trans
      (hp.trans (List.perm_insertionSort keyLE (normalizeMix m2)).symm)
  have hk1s : ((List.insertionSort keyLE (normalizeMix m1)).map Prod.fst).Nodup :=
    (((List.perm_insertionSort keyLE (normalizeMix m1))).map Prod.fst).nodup_iff.mpr hk1
  have hk2s : ((List.insertionSort keyLE (normalizeMix m2)).map Prod.fst).Nodup :=
    (hps.map Prod.fst).nodup_iff.mp hk1s
  have hs1 : (List.insertionSort keyLE (normalizeMix m1)).Pairwise keyLT :=
    sorted_keyLE_nodup_pairwise_lt (List.sorted_insertionSort keyLE _) hk1s
  have hs2 : (List.insertionSort keyLE (normalizeMix m2)).Pairwise keyLT :=
    sorted_keyLE_nodup_pairwise_lt (List.sorted_insertionSort keyLE _) hk2s
  have heq : List.insertionSort keyLE (normalizeMix m1) =
      List.insertionSort keyLE (normalizeMix m2) :=
    List.eq_of_perm_of_sorted hps hs1 hs2
  simp only [mixSignature]
  rw [heq]

/-- Scalar invariance of the signature when no entry crosses the EPS
relevance threshold. -/
theorem mixSignature_smul {m : Mix} {c : ℚ}
    (h : ∀ p ∈ m, EPS < p.2 ∧ EPS < c * p.2) :
    mixSignature (smulMix c m) = mixSignature m := by
  cases m with
  | nil => rfl
  | cons q rest =>
    have hall : ∀ p ∈ q :: rest, EPS < p.2 := fun p hp => (h p hp).1
    have hallc : ∀ p ∈ q :: rest, EPS < c * p.2 := fun p hp => (h p hp).2
    have hcpos : 0 < c := by
      have h1 := (h q (List.mem_cons_self _ _)).1
      have h2 := (h q (List.mem_cons_self _ _)).2
      by_contra hc
      push_neg at hc
      have : c * q.2 ≤ 0 :=
        mul_nonpos_of_nonpos_of_nonneg hc (le_of_lt (lt_trans EPS_pos h1))
      exact absurd (lt_of_lt_of_le (lt_trans EPS_pos h2) this) (lt_irrefl 0)
    -- both filters keep everything
    have hfil1 : (q :: rest).filter (fun p : String × ℚ => EPS < p.2) = q :: rest :=
      List.filter_eq_self.mpr (fun p hp => decide_eq_true (hall p hp))
    have hfil2 : (smulMix c (q :: rest)).filter (fun p : String × ℚ => EPS < p.2) =
        smulMix c (q :: rest) := by
      refine List.filter_eq_self.mpr (fun p hp => decide_eq_true ?_)
      simp only [smulMix, List.mem_map] at hp
      obtain ⟨p0, hp0, rfl⟩ := hp
      exact hallc p0 hp0
    have htot1 : EPS < mixTotal (q :: rest) := by
      have hq2 : EPS < q.2 := hall q (List.mem_cons_self _ _)
      have hrest : 0 ≤ (rest.map Prod.snd).sum := by
        apply List.sum_nonneg
        intro x hx
        obtain ⟨p0, hp0, rfl⟩ := List.mem_map.mp hx
        exact le_of_lt (lt_trans EPS_pos (hall p0 (List.mem_cons_of_mem q hp0)))
      calc EPS < q.2 := hq2
        _ ≤ q.2 + (rest.map Prod.snd).sum := le_add_of_nonneg_right hrest
        _ = mixTotal (q :: rest) := by simp [mixTotal]
    have htotc : mixTotal (smulMix c (q :: rest)) = c * mixTotal (q :: rest) := by
      simp only [mixTotal, smulMix, List.map_map, Function.comp]
      rw [← List.sum_map_mul_left]
      rfl
    have htot2 : EPS < mixTotal (smulMix c (q :: rest)) := by
      rw [htotc]
      calc EPS < c * q.2 := hallc q (List.mem_cons_self _ _)
        _ ≤ c * mixTotal (q :: rest) := by
          apply mul_le_mul_of_nonneg_left _ (le_of_lt hcpos)
          have hrest : 0 ≤ (rest.map Prod.snd).sum :=
            List.sum_nonneg (fun x hx => by
              simp only [List.mem_map] at hx
              obtain ⟨p0, hp0, rfl⟩ := hx
              exact le_of_lt (lt_trans EPS_pos (hall p0 (List.mem_cons_of_mem q hp0))))
          calc q.2 ≤ q.2 + (rest.map Prod.snd).sum := le_add_of_nonneg_right hrest
            _ = mixTotal (q :: rest) := by simp [mixTotal]
    have hnorm : normalizeMix (smulMix c (q :: rest)) = normalizeMix (q :: rest) := by
      simp only [normalizeMix]
      rw [hfil1, hfil2, if_neg (not_le.mpr htot1), if_neg (not_le.mpr htot2), htotc]
      have hT := lt_trans EPS_pos htot1
      simp only [smulMix, List.map_map, Function.comp]
      apply List.map_congr_left
      intro p _
      have : c * p.2 / (c * mixTotal (q :: rest)) = p.2 / mixTotal (q :: rest) := by
        rw [mul_div_mul_left _ _ (ne_of_gt hcpos)]
      simp [this]
    simp only [mixSignature]
    rw [hnorm]

/-- Every mixture with no relevant entry signs to the sentinel. -/
theorem mixSignature_empty {m : Mix} (h : ∀ p ∈ m, p.2 ≤ EPS) :
    mixSignature m = "empty" := by
  have hfil : m.filter (fun p : String × ℚ => EPS < p.2) = [] := by
    rw [List.filter_eq_nil_iff]
    intro p hp
    simpa using not_lt.mpr (h p hp)
  simp only [mixSignature, normalizeMix]
  rw [hfil]
  simp [mixTotal, le_of_lt EPS_pos]

/-- C4 counterexample: the claimed invariance under *every* positive scalar
fails.  Scaling `{A:1}` by the positive scalar `1e-10` pushes the entry below
the EPS relevance threshold, so the signature collapses to `"empty"` while the
original signs to `"A:1.000"`. -/
theorem mixSignature_scalar_counterexample :
    (0 : ℚ) < mkRat 1 10000000000 ∧
    mixSignature (smulMix (mkRat 1 10000000000) [("A", 1)]) ≠ mixSignature [("A", 1)] := by
  have c0_div : (mkRat 1 10000000000 : ℚ) = 1 / 10000000000 := by
    rw [Rat.mkRat_eq_div]; norm_num
  constructor
  · norm_num [c0_div]
  · have hsig1 : mixSignature [("A", (1:ℚ))] = "A:1.000" := by
      have hfil : ([("A", (1:ℚ))] : Mix).filter (fun p => EPS < p.2) = [("A", 1)] := by
        simp only [List.filter_cons, List.filter_nil]
        rw [if_pos (decide_eq_true (by norm_num [EPS_div] : EPS < (1:ℚ)))]
      have hnorm : normalizeMix [("A", (1:ℚ))] = [("A", 1)] := by
        simp only [normalizeMix, hfil, mixTotal, List.map_cons, List.map_nil, List.sum_cons,
          List.sum_nil]
        rw [if_neg (by norm_num [EPS_div])]
        norm_num
      have hfl : ⌊(1:ℚ) * 1000 + 1/2⌋ = 1000 := by
        rw [Int.floor_eq_iff]
        norm_num
      have hq : quantFmt 1 = "1.000" := by
        rw [quantFmt, hfl]
        decide
      simp only [mixSignature, hnorm]
      rw [show List.insertionSort keyLE [(("A" : String), (1:ℚ))] = [("A", 1)] from rfl]
      simp only [List.map_cons, List.map_nil, hq]
      decide
    have hsig2 : mixSignature (smulMix (mkRat 1 10000000000) [("A", 1)]) = "empty" := by
      apply mixSignature_empty
      intro p hp
      simp only [smulMix, List.map_cons, List.map_nil, List.mem_singleton] at hp
      subst hp
      show mkRat 1 10000000000 * 1 ≤ EPS
      norm_num [c0_div, EPS_div]
    rw [hsig1, hsig2]
    decide

/-- C4 (amended).  `mixSignature` is canonical up to the EPS relevance
threshold: it is invariant under re-ordering of the entries of a mixture with
unique keys; it is invariant under a scalar multiple `c·mix` provided every
entry stays strictly above EPS both before and after scaling (for arbitrary
positive scalars the invariance fails, see the counterexample); and every
mixture with no entry above EPS — in particular the empty mixture — yields
the fixed sentinel `"empty"`. -/
theorem mixSignature_canonical (m1 m2 m : Mix) (c : ℚ) :
    (m1.Perm m2 → (m1.map Prod.fst).Nodup → mixSignature m1 = mixSignature m2) ∧
    ((∀ p ∈ m, EPS < p.2 ∧ EPS < c * p.2) → mixSignature (smulMix c m) = mixSignature m) ∧
    ((∀ p ∈ m, p.2 ≤ EPS) → mixSignature m = "empty") :=
  ⟨fun hp hk => mixSignature_perm hp hk,
   fun h => mixSignature_smul h,
   fun h => mixSignature_empty h⟩

/-- C4 witness: two insertion orders of the same two-entry mixture produce
the same signature. -/
theorem mixSignature_canonical_witness :
    mixSignature [("A", 1), ("B", 2)] = mixSignature [("B", 2), ("A", 1)] :=
  (mixSignature_canonical [("A", 1), ("B", 2)] [("B", 2), ("A", 1)] [] 1).1
    (List.Perm.swap ("B", 2) ("A", 1) []) (by decide)

/-! ## C7: recipe memory upsert (GameEngine.ts rememberRecipe) -/

/-- `CraftProcess` from types.ts. -/
inductive CraftProcess where
  | forge | cook | brew | refine
deriving DecidableEq

/-- `CraftIntent` from types.ts. -/
inductive CraftIntent where
  | tool | weapon | food | drink | medicine | material
deriving DecidableEq

/-- `ItemDefinition` from world/items.ts, plus the optional analyzer-derived
fields (`tags`, `signature`) the engine reads off items. -/
structure ItemDefinition where
  id : String
  name : String
  mix : Mix
  tags : Option (List String) := none
  signature : Option String := none
deriving DecidableEq

/-- One entry of `npc.learnedRecipes` from types.ts. -/
structure LearnedRecipe where
  intent : CraftIntent
  process : CraftProcess
  inputSignatures : List String
  weights : Option (List ℚ) := none
  score : ℚ
deriving DecidableEq

/-- `inputs.map((input) => input.signature ?? mixSignature(input.mix))`. -/
def recipeSignatures (inputs : List ItemDefinition) : List String :=
  inputs.map (fun i => i.signature.getD (mixSignature i.mix))

/-- The collision test of `rememberRecipe` (GameEngine.ts:887-893): same
intent, same process, and the same ordered signature list (the source checks
equal length plus pointwise equality, which is list equality). -/
def recipeMatches (intent : CraftIntent) (process : CraftProcess) (sigs : List String)
    (r : LearnedRecipe) : Bool :=
  decide (r.intent = intent) && decide (r.process = process) &&
    decide (r.inputSignatures = sigs)

/-- The in-place update of the first matching entry, or push at the end
(GameEngine.ts:895-902). -/
def upsertRecipe (intent : CraftIntent) (process : CraftProcess) (sigs : List String)
    (weights : Option (List ℚ)) (score : ℚ) :
    List LearnedRecipe → List LearnedRecipe
  | [] => [⟨intent, process, sigs, weights, score⟩]
  | r :: rest =>
    if recipeMatches intent process sigs r then
      (if r.score < score then
        { r with score := score, weights := weights.orElse (fun _ => r.weights) }
      else r) :: rest
    else r :: upsertRecipe intent process sigs weights score rest

/-- `rememberRecipe` from GameEngine.ts:874-903, acting on the
`npc.learnedRecipes` list. -/
def rememberRecipe (recipes : List LearnedRecipe) (intent : CraftIntent)
    (process : CraftProcess) (inputs : List ItemDefinition)
    (weights : Option (List ℚ)) (score : ℚ) : List LearnedRecipe :=
  upsertRecipe intent process (recipeSignatures inputs) weights score recipes

theorem upsertRecipe_no_match {intent process sigs weights score}
    {l : List LearnedRecipe}
    (h : ∀ x ∈ l, recipeMatches intent process sigs x = false) :
    upsertRecipe intent process sigs weights score l =
      l ++ [⟨intent, process, sigs, weights, score⟩] := by
  induction l with
  | nil => rfl
  | cons r rest ih =>
    have hr : recipeMatches intent process sigs r = false := h r (List.mem_cons_self _ _)
    simp only [upsertRecipe, hr]
    simp only [Bool.false_eq_true, if_false, List.cons_append, List.cons.injEq, true_and]
    exact ih (fun x hx => h x (List.mem_cons_of_mem _ hx))

theorem upsertRecipe_first_match {intent process sigs weights score}
    {pre post : List LearnedRecipe} {r : LearnedRecipe}
    (hpre : ∀ x ∈ pre, recipeMatches intent process sigs x = false)
    (hr : recipeMatches intent process sigs r = true) :
    upsertRecipe intent process sigs weights score (pre ++ r :: post) =
      pre ++ (if r.score < score then
        { r with score := score, weights := weights.orElse (fun _ => r.weights) }
      else r) :: post := by
  induction pre with
  | nil =>
    simp only [List.nil_append, upsertRecipe, hr, if_true]
  | cons x rest ih =>
    have hx : recipeMatches intent process sigs x = false := hpre x (List.mem_cons_self _ _)
    simp only [List.cons_append, upsertRecipe, hx, Bool.false_eq_true, if_false,
      List.cons.injEq, true_and]
    exact ih (fun y hy => hpre y (List.mem_cons_of_mem _ hy))

/-- C7.  `rememberRecipe` upserts by exact `(intent, process, signature list)`
match: when the first matching entry scores at least the new score, nothing
changes (a lower-or-equal scoring duplicate never overwrites the stored score
or weights); when the new score is strictly higher, exactly that entry is
replaced in place (taking the new score, and the new weights when supplied);
and with no match at all the new entry is appended. -/
theorem rememberRecipe_upsert (recipes pre post : List LearnedRecipe) (r : LearnedRecipe)
    (intent : CraftIntent) (process : CraftProcess) (inputs : List ItemDefinition)
    (weights : Option (List ℚ)) (score : ℚ) :
    (recipes = pre ++ r :: post →
      (∀ x ∈ pre, recipeMatches intent process (recipeSignatures inputs) x = false) →
      recipeMatches intent process (recipeSignatures inputs) r = true →
      score ≤ r.score →
      rememberRecipe recipes intent process inputs weights score = recipes) ∧
    (recipes = pre ++ r :: post →
      (∀ x ∈ pre, recipeMatches intent process (recipeSignatures inputs) x = false) →
      recipeMatches intent process (recipeSignatures inputs) r = true →
      r.score < score →
      rememberRecipe recipes intent process inputs weights score =
        pre ++ ({ r with score := score, weights := weights.orElse (fun _ => r.weights) }) :: post) ∧
    ((∀ x ∈ recipes, recipeMatches intent process (recipeSignatures inputs) x = false) →
      rememberRecipe recipes intent process inputs weights score =
        recipes ++ [⟨intent, process, recipeSignatures inputs, weights, score⟩]) := by
  refine ⟨?_, ?_, ?_⟩
  · intro heq hpre hr hscore
    subst heq
    rw [rememberRecipe, upsertRecipe_first_match hpre hr, if_neg (not_lt.mpr hscore)]
  · intro heq hpre hr hscore
    subst heq
    rw [rememberRecipe, upsertRecipe_first_match hpre hr, if_pos hscore]
  · intro h
    rw [rememberRecipe, upsertRecipe_no_match h]

/-- C7 witness: remembering a duplicate signature set with a lower score
leaves a concrete one-entry memory unchanged. -/
theorem rememberRecipe_upsert_witness :
    rememberRecipe [⟨CraftIntent.food, CraftProcess.cook, ["s"], none, 5⟩]
      CraftIntent.food CraftProcess.cook
      [{ id := "i", name := "i", mix := [], signature := some "s" }] none 3 =
    [⟨CraftIntent.food, CraftProcess.cook, ["s"], none, 5⟩] :=
  (rememberRecipe_upsert [⟨CraftIntent.food, CraftProcess.cook, ["s"], none, 5⟩] [] []
      ⟨CraftIntent.food, CraftProcess.cook, ["s"], none, 5⟩
      CraftIntent.food CraftProcess.cook
      [{ id := "i", name := "i", mix := [], signature := some "s" }] none 3).1
    rfl (by simp) (by decide) (by decide)

/-! ## C8: crafting input combination (crafting.ts combineMixes) -/

/-- The `normalizedWeights` array of combineMixes (crafting.ts:7-9): the
caller's weights when present with matching length, else all ones. -/
def effectiveWeights (items : List ItemDefinition) (weights : Option (List ℚ)) : List ℚ :=
  match weights with
  | some w => if w.length = items.length then w else List.replicate items.length 1
  | none => List.replicate items.length 1

/-- `weightSum` (crafting.ts:10): sum of `Math.max(w, 0)`, with the JS `||`
falling back to `items.length` when the sum is `0` (the only falsy value a
sum of non-negative rationals can take). -/
def combineWeightSum (items : List ItemDefinition) (weights : Option (List ℚ)) : ℚ :=
  let s := ((effectiveWeights items weights).map (fun w => max w 0)).sum
  if s = 0 then (items.length : ℚ) else s

/-- The normalized weight used for input `idx`
(`Math.max(normalizedWeights[idx] ?? 1, 0) / weightSum`, crafting.ts:13). -/
def combineWeight (items : List ItemDefinition) (weights : Option (List ℚ)) (idx : ℕ) : ℚ :=
  max ((effectiveWeights items weights).getD idx 1) 0 / combineWeightSum items weights

/-- `combineMixes(items, weights)` from crafting.ts:5-17. -/
def combineMixes (items : List ItemDefinition) (weights : Option (List ℚ)) : Mix :=
  if items.length = 0 then []
  else
    items.enum.foldl
      (fun acc p => mixMerge acc (mixScale p.2.mix (combineWeight items weights p.1))) []

theorem effectiveWeights_length (items : List ItemDefinition) (weights : Option (List ℚ)) :
    (effectiveWeights items weights).length = items.length := by
  match weights with
  | none => simp [effectiveWeights]
  | some w =>
    simp only [effectiveWeights]
    by_cases h : w.length = items.length
    · rw [if_pos h]; exact h
    · rw [if_neg h]; exact List.length_replicate _ _

theorem sum_range_getD (l : List ℚ) (f : ℚ → ℚ) (d : ℚ) :
    ((List.range l.length).map (fun i => f (l.getD i d))).sum = (l.map f).sum := by
  induction l with
  | nil => rfl
  | cons a t ih =>
    rw [List.length_cons, List.range_succ_eq_map]
    simp only [List.map_cons, List.map_map, List.sum_cons]
    have htail : ((List.range t.length).map
          ((fun i => f ((a :: t).getD i d)) ∘ Nat.succ)) =
        (List.range t.length).map (fun i => f (t.getD i d)) := by
      apply List.map_congr_left
      intro i _
      rfl
    rw [htail, ih]
    rfl

theorem mixScale_zero (m : Mix) : mixScale m 0 = [] := by
  rw [mixScale, List.filterMap_eq_nil_iff]
  intro p _
  rw [if_neg]
  rw [mul_zero]
  exact not_lt.mpr (le_of_lt EPS_pos)

theorem foldl_mixMerge_nil {α : Type} (l : List α) (f : α → Mix)
    (h : ∀ p ∈ l, f p = []) :
    l.foldl (fun acc p => mixMerge acc (f p)) [] = [] := by
  induction l with
  | nil => rfl
  | cons p rest ih =>
    simp only [List.foldl_cons]
    rw [h p (List.mem_cons_self _ _)]
    exact ih (fun q hq => h q (List.mem_cons_of_mem _ hq))

/-- C8 counterexample: with the all-zero weight list `[0]`, the normalized
weights of `combineMixes` sum to 0 — not 1 — and the combined mixture is
empty even though the single input's mixture is not. -/
theorem combineMixes_weights_counterexample :
    ((List.range 1).map
        (combineWeight [{ id := "i", name := "i", mix := [("GLU", 1)] }] (some [0]))).sum ≠ 1 ∧
    combineMixes [{ id := "i", name := "i", mix := [("GLU", 1)] }] (some [0]) = [] := by
  have hw : combineWeight [{ id := "i", name := "i", mix := [("GLU", 1)] }] (some [0]) 0 = 0 := by
    simp only [combineWeight, combineWeightSum, effectiveWeights]
    norm_num
  constructor
  · simp only [List.range_succ, List.range_zero, List.nil_append, List.map_cons,
      List.map_nil, List.sum_cons, List.sum_nil, hw]
    norm_num
  · simp only [combineMixes]
    rw [if_neg (by norm_num)]
    have henum : ([{ id := "i", name := "i", mix := [("GLU", 1)] }] :
        List ItemDefinition).enum = [(0, { id := "i", name := "i", mix := [("GLU", 1)] })] := rfl
    rw [henum]
    simp only [List.foldl_cons, List.foldl_nil, hw, mixScale_zero]
    rfl

/-- C8 (amended).  For a non-empty input list, `combineMixes` scales each
input mixture by `max(wᵢ,0)/Σmax(w,0)` and merges the results; the normalized
weights sum to 1 whenever some effective weight is positive — in particular
under the default equal weighting `1/n` used when no weights are supplied.
When every effective weight is ≤ 0 (all-nonpositive caller weights) the
normalized weights are all 0, they do not sum to 1, and the combined mixture
is empty. -/
theorem combineMixes_weights_spec (items : List ItemDefinition) (weights : Option (List ℚ)) :
    (items ≠ [] →
      0 < ((effectiveWeights items weights).map (fun w => max w 0)).sum →
      ((List.range items.length).map (combineWeight items weights)).sum = 1) ∧
    (items ≠ [] → weights = none →
      ∀ idx, idx < items.length → combineWeight items weights idx = 1 / items.length) ∧
    ((∀ w ∈ effectiveWeights items weights, w ≤ 0) →
      (∀ idx, idx < items.length → combineWeight items weights idx = 0) ∧
      combineMixes items weights = []) := by
  refine ⟨?_, ?_, ?_⟩
  · intro _ hpos
    have hsum : combineWeightSum items weights =
        ((effectiveWeights items weights).map (fun w => max w 0)).sum := by
      rw [combineWeightSum, if_neg (ne_of_gt hpos)]
    show ((List.range items.length).map
        (fun idx => max ((effectiveWeights items weights).getD idx 1) 0 /
          combineWeightSum items weights)).sum = 1
    simp only [hsum, div_eq_mul_inv]
    rw [List.sum_map_mul_right]
    have hlen : items.length = (effectiveWeights items weights).length :=
      (effectiveWeights_length items weights).symm
    rw [hlen, sum_range_getD (effectiveWeights items weights) (fun w => max w 0) 1]
    exact mul_inv_cancel₀ (ne_of_gt hpos)
  · intro hne hnone idx _
    subst hnone
    have hew : effectiveWeights items none = List.replicate items.length 1 := rfl
    have hgetD : (List.replicate items.length (1:ℚ)).getD idx 1 = 1 := by
      rcases lt_or_ge idx items.length with h | h
      · rw [List.getD_eq_getElem?_getD, List.getElem?_replicate, if_pos h]
        rfl
      · rw [List.getD_eq_getElem?_getD, List.getElem?_replicate,
          if_neg (not_lt.mpr h)]
        rfl
    have hn0 : items.length ≠ 0 := fun h => hne (List.eq_nil_of_length_eq_zero h)
    have hsum : combineWeightSum items none = (items.length : ℚ) := by
      rw [combineWeightSum]
      have hmax10 : max (1:ℚ) 0 = 1 := max_eq_left (by norm_num)
      have h1 : ((effectiveWeights items none).map (fun w => max w 0)).sum
          = (items.length : ℚ) := by
        rw [hew, List.map_replicate]
        simp only [hmax10]
        rw [List.sum_replicate, nsmul_eq_mul, mul_one]
      rw [h1, if_neg (by exact_mod_cast hn0)]
    rw [combineWeight, hsum, hew, hgetD]
    norm_num
  · intro hle
    have hmax : ((effectiveWeights items weights).map (fun w => max w 0)) =
        List.replicate (effectiveWeights items weights).length 0 := by
      rw [List.eq_replicate_iff]
      refine ⟨by simp, ?_⟩
      intro x hx
      obtain ⟨w, hw, rfl⟩ := List.mem_map.mp hx
      exact max_eq_right (hle w hw)
    have hzero : ∀ idx, idx < items.length → combineWeight items weights idx = 0 := by
      intro idx hidx
      have hidx' : idx < (effectiveWeights items weights).length := by
        rw [effectiveWeights_length]; exact hidx
      have hgd : (effectiveWeights items weights).getD idx 1 =
          (effectiveWeights items weights).get ⟨idx, hidx'⟩ := by
        rw [List.getD_eq_getElem?_getD, List.getElem?_eq_getElem hidx']
        rfl
      have hmem : (effectiveWeights items weights).get ⟨idx, hidx'⟩ ∈
          effectiveWeights items weights := List.get_mem _ _ hidx'
      rw [combineWeight, hgd, max_eq_right (hle _ hmem), zero_div]
    refine ⟨hzero, ?_⟩
    rw [combineMixes]
    by_cases hn : items.length = 0
    · rw [if_pos hn]
    · rw [if_neg hn]
      apply foldl_mixMerge_nil
      intro p hp
      have hplt : p.1 < items.length := by
        have hg := List.mem_enum_iff_getElem?.mp hp
        obtain ⟨h, _⟩ := List.getElem?_eq_some.mp hg
        exact h
      rw [hzero p.1 hplt, mixScale_zero]

/-- C8 witness: with two inputs and no caller weights, the normalized weights
sum to 1 (equal weighting). -/
theorem combineMixes_weights_spec_witness :
    ((List.range ([{ id := "a", name := "a", mix := [] },
        { id := "b", name := "b", mix := [] }] : List ItemDefinition).length).map
      (combineWeight [{ id := "a", name := "a", mix := [] },
        { id := "b", name := "b", mix := [] }] none)).sum = 1 :=
  (combineMixes_weights_spec [{ id := "a", name := "a", mix := [] },
      { id := "b", name := "b", mix := [] }] none).1
    (by simp)
    (by norm_num [effectiveWeights, List.map_replicate])

/-! ## C9: the variation scalar of craftOnce (crafting.ts 40-64)

`RandomLike` is crafting.ts's interface `{ choice<T>(array: T[]): T;
next?(): number }`.  For the variation computation only two facts about the
caller's source matter: whether the object exists at all (the
`typeof random?.choice === 'function'` guard, modelled by wrapping in
`Option`), and whether it has a `next` method together with the value that
method would yield this call (`next : Option ℚ`).  The ambient
`Math.random()` value the engine would fall back on is passed explicitly as
`mathRandom`, making the hidden randomness channel visible. -/

structure RandomLike where
  next : Option ℚ

/-- `processOptions(process)` from crafting.ts:19-38. -/
def processOptions (process : CraftProcess) : ReactorOptions :=
  match process with
  | CraftProcess.forge =>
    { temperature := some (9/10), tags := some [("heat", 1)], steps := some 8, dt := some (8/10) }
  | CraftProcess.cook =>
    { temperature := some (65/100), tags := some [("heat", 6/10), ("wet", 2/10)],
      steps := some 6, dt := some (6/10) }
  | CraftProcess.brew =>
    { temperature := some (55/100), tags := some [("wet", 1)], steps := some 10,
      dt := some (5/10) }
  | CraftProcess.refine =>
    { temperature := some (75/100), tags := some [("heat", 8/10), ("oxidize", 5/10)],
      steps := some 7, dt := some (7/10) }

/-- The `variation` scalar of craftOnce (crafting.ts:56):
`typeof random?.choice === 'function' && 'next' in random ? random.next!() : Math.random()`. -/
def craftVariation (mathRandom : ℚ) (random : Option RandomLike) : ℚ :=
  match random with
  | some r =>
    match r.next with
    | some v => v
    | none => mathRandom
  | none => mathRandom

/-- The reacted mixture produced by `craftOnce` (crafting.ts:54-61); the final
`itemRegistry.spawnFromMix(label, reactedMix)` step registers exactly this
mixture under a fresh id. -/
def craftOnceMix (mathRandom : ℚ) (random : Option RandomLike)
    (reactions : List ReactionRule) (inputs : List ItemDefinition)
    (process : CraftProcess) (weights : Option (List ℚ)) : Mix :=
  let combined := combineMixes inputs weights
  let options := processOptions process
  let variation := craftVariation mathRandom random
  runReactor combined
    { options with tags := some (mixSet (options.tags.getD []) "variation" variation) }
    reactions

theorem iterCtx_fixed {reactions : List ReactionRule} {dt : ℚ} {c : ReactionContext}
    (h : applyRules reactions c dt = c) : ∀ n, iterCtx reactions dt n c = c
  | 0 => rfl
  | n + 1 => by
    show applyRules reactions (iterCtx reactions dt n c) dt = c
    rw [iterCtx_fixed h n, h]

theorem iterCtx_shift (reactions : List ReactionRule) (dt : ℚ) (n : ℕ)
    (c : ReactionContext) :
    iterCtx reactions dt (n + 1) c = iterCtx reactions dt n (applyRules reactions c dt) := by
  induction n with
  | zero => rfl
  | succ k ih =>
    show applyRules reactions (iterCtx reactions dt (k + 1) c) dt = _
    rw [ih]
    rfl

/-- A probe rule whose gating condition reads the injected `variation` tag. -/
def variationProbe : ReactionRule where
  inputs := [("GLU", 1)]
  outputs := []
  rate := 5/3
  condition := fun ctx => mixGet (ctx.tags.getD []) "variation"

def gluItem : ItemDefinition := { id := "glu", name := "glu", mix := [("GLU", 1)] }

/-- The reaction context craftOnce hands the reactor for `gluItem`, cook
process, and variation `v`, with current working mixture `m`. -/
def probeCtx (v : ℚ) (m : Mix) : ReactionContext :=
  { mix := m
    temperature := some (65/100)
    catalysts := none
    tags := some [("heat", 6/10), ("wet", 2/10), ("variation", v)] }

theorem combineMixes_gluItem : combineMixes [gluItem] none = [("GLU", 1)] := by
  have hmax : max (1:ℚ) 0 = 1 := max_eq_left (by norm_num)
  have he : effectiveWeights [gluItem] none = [1] := rfl
  have hs : combineWeightSum [gluItem] none = 1 := by
    rw [combineWeightSum, he]
    simp only [List.map_cons, List.map_nil, List.sum_cons, List.sum_nil, hmax]
    norm_num
  have hw : combineWeight [gluItem] none 0 = 1 := by
    rw [combineWeight, he, hs]
    simp only [List.getD_cons_zero, hmax]
    norm_num
  have hscale : mixScale [("GLU", 1)] 1 = [("GLU", 1)] := by
    rw [mixScale]
    simp only [List.filterMap_cons, List.filterMap_nil]
    rw [if_pos (by norm_num [EPS_div])]
    norm_num
  have hmerge : mixMerge [] [("GLU", (1:ℚ))] = [("GLU", 1)] := by
    rw [mixMerge]
    simp only [List.foldl_cons, List.foldl_nil]
    rw [mixAdd, if_neg (by rw [abs_one]; norm_num [TINY_div])]
    simp only [mixGet, List.lookup, Option.getD_none, zero_add]
    rw [if_neg (by norm_num [EPS_div])]
    rfl
  rw [combineMixes, if_neg (by norm_num),
    show ([gluItem] : List ItemDefinition).enum = [(0, gluItem)] from rfl]
  simp only [List.foldl_cons, List.foldl_nil, hw]
  show mixMerge [] (mixScale [("GLU", 1)] 1) = [("GLU", 1)]
  rw [hscale, hmerge]

theorem mixSet_cook_variation (m : ℚ) :
    mixSet [("heat", (6:ℚ)/10), ("wet", 2/10)] "variation" m =
      [("heat", 6/10), ("wet", 2/10), ("variation", m)] := by
  simp [mixSet]

theorem craftOnceMix_probe (m : ℚ) :
    craftOnceMix m (some { next := none }) [variationProbe] [gluItem]
      CraftProcess.cook none =
      (iterCtx [variationProbe] (6/10) 6 (probeCtx m [("GLU", 1)])).mix := by
  show runReactor (combineMixes [gluItem] none)
      { processOptions CraftProcess.cook with
        tags := some (mixSet ((processOptions CraftProcess.cook).tags.getD []) "variation"
          (craftVariation m (some { next := none }))) } [variationProbe] =
    (iterCtx [variationProbe] (6/10) 6 (probeCtx m [("GLU", 1)])).mix
  rw [combineMixes_gluItem]
  show (iterCtx [variationProbe] (6/10) 6
      { mix := [("GLU", 1)]
        temperature := some (65/100)
        catalysts := none
        tags := some (mixSet [("heat", 6/10), ("wet", 2/10)] "variation"
          (craftVariation m (some { next := none }))) }).mix =
    (iterCtx [variationProbe] (6/10) 6 (probeCtx m [("GLU", 1)])).mix
  rw [show craftVariation m (some { next := none }) = m from rfl, mixSet_cook_variation]
  rfl

theorem probe_condition (ctx : ReactionContext) (v : ℚ)
    (h : ctx.tags = some [("heat", 6/10), ("wet", 2/10), ("variation", v)]) :
    variationProbe.condition ctx = v := by
  show mixGet (ctx.tags.getD []) "variation" = v
  rw [h]
  simp only [Option.getD_some, mixGet, List.lookup,
    (by decide : (("variation" : String) == "heat") = false),
    (by decide : (("variation" : String) == "wet") = false),
    (by decide : (("variation" : String) == "variation") = true)]

theorem probe_limit_full : variationProbe.limit [("GLU", 1)] = some 1 := by
  rw [ReactionRule.limit]
  have hr : limitRatios variationProbe.inputs [("GLU", 1)] = [1] := by
    show limitRatios [("GLU", 1)] [("GLU", 1)] = [1]
    rw [limitRatios]
    simp only [List.filterMap_cons, List.filterMap_nil]
    rw [if_pos (by norm_num)]
    simp only [mixGet, List.lookup, (by decide : (("GLU" : String) == "GLU") = true)]
    norm_num
  rw [hr]
  rfl

theorem probe_limit_empty : variationProbe.limit [] = some 0 := by
  rw [ReactionRule.limit]
  have hr : limitRatios variationProbe.inputs [] = [0] := by
    show limitRatios [("GLU", 1)] [] = [0]
    rw [limitRatios]
    simp only [List.filterMap_cons, List.filterMap_nil]
    rw [if_pos (by norm_num)]
    simp only [mixGet, List.lookup]
    norm_num
  rw [hr]
  rfl

theorem probe_apply_v0 :
    applyRules [variationProbe] (probeCtx 0 [("GLU", 1)]) (6/10) =
      probeCtx 0 [("GLU", 1)] := by
  show variationProbe.apply (probeCtx 0 [("GLU", 1)]) (6/10) = probeCtx 0 [("GLU", 1)]
  rw [ReactionRule.apply_fields]
  have hcond : variationProbe.condition (probeCtx 0 [("GLU", 1)]) = 0 :=
    probe_condition _ 0 rfl
  have happ : variationProbe.applyMix (probeCtx 0 [("GLU", 1)]) (6/10) =
      (probeCtx 0 [("GLU", 1)]).mix := by
    simp only [ReactionRule.applyMix, hcond]
    rw [show clamp (0:ℚ) 0 3 = 0 from by
      rw [clamp, min_eq_right (by norm_num : (0:ℚ) ≤ 3), max_self]]
    rw [if_pos (le_refl (0:ℚ))]
  rw [happ]

theorem probe_apply_v1_first :
    applyRules [variationProbe] (probeCtx 1 [("GLU", 1)]) (6/10) = probeCtx 1 [] := by
  show variationProbe.apply (probeCtx 1 [("GLU", 1)]) (6/10) = probeCtx 1 []
  rw [ReactionRule.apply_fields]
  have hcond : variationProbe.condition (probeCtx 1 [("GLU", 1)]) = 1 :=
    probe_condition _ 1 rfl
  have hclamp : clamp (1:ℚ) 0 3 = 1 := by
    rw [clamp, min_eq_right (by norm_num : (1:ℚ) ≤ 3),
      max_eq_right (by norm_num : (0:ℚ) ≤ 1)]
  have happ : variationProbe.applyMix (probeCtx 1 [("GLU", 1)]) (6/10) = [] := by
    simp only [ReactionRule.applyMix, hcond, hclamp]
    rw [if_neg (by norm_num : ¬ (1:ℚ) ≤ 0)]
    rw [show (probeCtx 1 [("GLU", 1)]).mix = [("GLU", 1)] from rfl]
    simp only [probe_limit_full]
    rw [if_neg (by norm_num : ¬ (1:ℚ) ≤ 0)]
    rw [show variationProbe.rate = 5/3 from rfl]
    rw [if_neg (by norm_num : ¬ (5:ℚ)/3 * (6/10) * 1 * 1 ≤ 0)]
    rw [show variationProbe.inputs = [("GLU", 1)] from rfl,
      show variationProbe.outputs = [] from rfl]
    simp only [List.foldl_cons, List.foldl_nil]
    rw [show -(1:ℚ) * ((5:ℚ)/3 * (6/10) * 1 * 1) = -1 from by norm_num]
    rw [mixAdd, if_neg (by rw [abs_neg, abs_one]; norm_num [TINY_div])]
    rw [show mixGet [("GLU", (1:ℚ))] "GLU" = 1 from by
      simp only [mixGet, List.lookup, (by decide : (("GLU" : String) == "GLU") = true)]
      rfl]
    rw [if_pos (by norm_num [EPS_div] : (1:ℚ) + -1 ≤ EPS)]
    rfl
  rw [happ]
  rfl

theorem probe_apply_v1_rest :
    applyRules [variationProbe] (probeCtx 1 []) (6/10) = probeCtx 1 [] := by
  show variationProbe.apply (probeCtx 1 []) (6/10) = probeCtx 1 []
  rw [ReactionRule.apply_fields]
  have hcond : variationProbe.condition (probeCtx 1 []) = 1 :=
    probe_condition _ 1 rfl
  have hclamp : clamp (1:ℚ) 0 3 = 1 := by
    rw [clamp, min_eq_right (by norm_num : (1:ℚ) ≤ 3),
      max_eq_right (by norm_num : (0:ℚ) ≤ 1)]
  have happ : variationProbe.applyMix (probeCtx 1 []) (6/10) = [] := by
    simp only [ReactionRule.applyMix, hcond, hclamp]
    rw [if_neg (by norm_num : ¬ (1:ℚ) ≤ 0)]
    rw [show (probeCtx 1 []).mix = [] from rfl]
    simp only [probe_limit_empty]
    rw [if_pos (le_refl (0:ℚ))]
  rw [happ]
  rfl

/-- C9 counterexample: with a caller source that has `choice` but no `next`
method, two crafts with identical arguments and identical source behaviour
produce different reacted mixtures purely because the engine-internal
`Math.random()` fallback differed — the engine does introduce randomness of
its own. -/
theorem craftOnce_hidden_randomness_counterexample :
    craftOnceMix 0 (some { next := none }) [variationProbe] [gluItem]
        CraftProcess.cook none ≠
      craftOnceMix 1 (some { next := none }) [variationProbe] [gluItem]
        CraftProcess.cook none := by
  have h0 : craftOnceMix 0 (some { next := none }) [variationProbe] [gluItem]
      CraftProcess.cook none = [("GLU", 1)] := by
    rw [craftOnceMix_probe 0, iterCtx_fixed probe_apply_v0 6]
    rfl
  have h6 : iterCtx [variationProbe] ((6:ℚ)/10) 6 (probeCtx 1 [("GLU", 1)]) =
      probeCtx 1 [] := by
    have hstep := iterCtx_shift [variationProbe] (6/10) 5 (probeCtx 1 [("GLU", 1)])
    rw [probe_apply_v1_first] at hstep
    calc iterCtx [variationProbe] ((6:ℚ)/10) 6 (probeCtx 1 [("GLU", 1)])
        = iterCtx [variationProbe] (6/10) 5 (probeCtx 1 []) := hstep
      _ = probeCtx 1 [] := iterCtx_fixed probe_apply_v1_rest 5
  have h1 : craftOnceMix 1 (some { next := none }) [variationProbe] [gluItem]
      CraftProcess.cook none = [] := by
    rw [craftOnceMix_probe 1, h6]
    rfl
  rw [h0, h1]
  simp

/-- C9 (amended).  When the caller-supplied random source exists and provides
a `next` method, the injected variation comes exclusively from it: the
crafted mixture is fully determined by the arguments plus the value the
source yields, independent of the ambient `Math.random` value.  When the
source is missing or lacks `next`, `craftOnce` falls back to engine-internal
`Math.random` (see the counterexample). -/
theorem craftOnce_variation_from_caller (m1 m2 : ℚ) (r : RandomLike) (v : ℚ)
    (reactions : List ReactionRule) (inputs : List ItemDefinition)
    (process : CraftProcess) (weights : Option (List ℚ))
    (h : r.next = some v) :
    craftOnceMix m1 (some r) reactions inputs process weights =
      craftOnceMix m2 (some r) reactions inputs process weights ∧
    craftVariation m1 (some r) = v := by
  have hv : ∀ m : ℚ, craftVariation m (some r) = v := by
    intro m
    rw [craftVariation]
    rw [h]
  constructor
  · rw [craftOnceMix, craftOnceMix, hv m1, hv m2]
  · exact hv m1

/-- C9 witness: a source with `next` yielding `1/2` pins the variation to
`1/2` and makes the craft independent of the ambient value. -/
theorem craftOnce_variation_from_caller_witness :
    craftOnceMix 0 (some { next := some (1/2) }) [] [] CraftProcess.cook none =
      craftOnceMix 1 (some { next := some (1/2) }) [] [] CraftProcess.cook none ∧
    craftVariation 0 (some { next := some (1/2) }) = 1/2 :=
  craftOnce_variation_from_caller 0 1 { next := some (1/2) } (1/2) [] []
    CraftProcess.cook none rfl

/-! ## C10: pickLearnedRecipe recalls only recipes with at least two inputs
(GameEngine.ts 844-872) -/

instance : Inhabited ItemDefinition := ⟨{ id := "", name := "", mix := [] }⟩

/-- The seeded linear-congruential `Random` class of GameEngine.ts:41-63.
Integer seeds stay integral under the recurrence, so the seed is a `ℕ`. -/
structure EngineRandom where
  seed : ℕ

/-- `next()`: advance the seed and yield `seed / 233280 ∈ [0,1)`. -/
def EngineRandom.next (r : EngineRandom) : ℚ × EngineRandom :=
  let s := (r.seed * 9301 + 49297) % 233280
  ((s : ℚ) / 233280, ⟨s⟩)

/-- `choice(array)`: `array[Math.floor(this.next() * array.length)]`.  The JS
method throws on an empty array; every call site guards non-emptiness, so the
out-of-range default of `getD` is unreachable there. -/
def EngineRandom.choice (r : EngineRandom) (l : List ItemDefinition) :
    ItemDefinition × EngineRandom :=
  let p := r.next
  (l.getD (⌊p.1 * l.length⌋).toNat default, p.2)

/-- `Inventory = Map<ItemId, number>` from types.ts, as an association list
keyed by item id.  `npc.inventory` is an optional field, embedded as
`Option Inventory`. -/
abbrev Inventory : Type := List (String × ℚ)

/-- `inventoryGet(entity, itemId)` from the centralized inventory helpers
(engine/types.ts, re-exported as `world/inventory`): 0 when the entity has no
inventory, else `entity.inventory.get(itemId) || 0`. -/
def inventoryGet (inv : Option Inventory) (itemId : String) : ℚ :=
  match inv with
  | none => 0
  | some m => (List.lookup itemId m).getD 0

/-- `inventoryHas(entity, itemId, quantity)` from the same module:
`inventoryGet(entity, itemId) >= quantity`. -/
def inventoryHas (inv : Option Inventory) (itemId : String) (qty : ℚ) : Bool :=
  decide (qty ≤ inventoryGet inv itemId)

/-- `stockHas(stock, itemId, qty)` from world/stockpile.ts:
`(stock[itemId] ?? 0) >= qty`. -/
def stockHas (stock : List (String × ℚ)) (itemId : String) (qty : ℚ) : Bool :=
  decide (qty ≤ ((List.lookup itemId stock).getD 0))

inductive SelSource where
  | inventory | stockpile
deriving DecidableEq

structure Selection where
  definition : ItemDefinition
  source : SelSource
deriving DecidableEq

/-- `countSelection` from GameEngine.ts:734-736. -/
def countSelection (selections : List Selection) (itemId : String) (source : SelSource) : ℕ :=
  (selections.filter (fun s => decide (s.definition.id = itemId) &&
    decide (s.source = source))).length

/-- `matchItemBySignature` from GameEngine.ts:815-842, with the item registry
list, inventory, stockpile and RNG state passed explicitly. -/
def matchItemBySignature (catalog : List ItemDefinition) (inv : Option Inventory)
    (stockpile : List (String × ℚ)) (rand : EngineRandom) (signature : String)
    (selections : List Selection) : Option Selection × EngineRandom :=
  let candidates := catalog.filter (fun item =>
    decide (item.signature = some signature) || decide (mixSignature item.mix = signature))
  let invPool := candidates.filter (fun item =>
    inventoryHas inv item.id ((1 + countSelection selections item.id SelSource.inventory : ℕ) : ℚ))
  if 0 < invPool.length then
    let p := rand.choice invPool
    (some ⟨p.1, SelSource.inventory⟩, p.2)
  else
    let stockPool := candidates.filter (fun item =>
      stockHas stockpile item.id
        ((1 + countSelection selections item.id SelSource.stockpile : ℕ) : ℚ))
    if 0 < stockPool.length then
      let p := rand.choice stockPool
      (some ⟨p.1, SelSource.stockpile⟩, p.2)
    else (none, rand)

/-- The inner slot loop of `pickLearnedRecipe` (GameEngine.ts:855-864):
acquire an item for each signature in order, threading selections and RNG. -/
def trySlots (catalog : List ItemDefinition) (inv : Option Inventory)
    (stockpile : List (String × ℚ)) :
    List String → List Selection → EngineRandom →
      Option (List Selection) × EngineRandom
  | [], acc, r => (some acc, r)
  | sig :: rest, acc, r =>
    match matchItemBySignature catalog inv stockpile r sig acc with
    | (none, r') => (none, r')
    | (some c, r') => trySlots catalog inv stockpile rest (acc ++ [c]) r'

def scoreGE (a b : LearnedRecipe) : Prop := b.score ≤ a.score

instance : DecidableRel scoreGE := fun a b => inferInstanceAs (Decidable (b.score ≤ a.score))

/-- The candidate loop of `pickLearnedRecipe` (GameEngine.ts:854-868): first
fully satisfiable candidate with at least two selections wins. -/
def pickLoop (catalog : List ItemDefinition) (inv : Option Inventory)
    (stockpile : List (String × ℚ)) :
    List LearnedRecipe → EngineRandom →
      Option (List Selection × Option (List ℚ)) × EngineRandom
  | [], r => (none, r)
  | rec :: rest, r =>
    match trySlots catalog inv stockpile rec.inputSignatures [] r with
    | (some sels, r') =>
      if 2 ≤ sels.length then (some (sels, rec.weights), r')
      else pickLoop catalog inv stockpile rest r'
    | (none, r') => pickLoop catalog inv stockpile rest r'

/-- `pickLearnedRecipe` from GameEngine.ts:844-872: filter the agent's
learned recipes by `(intent, process)`, sort descending by score, and scan. -/
def pickLearnedRecipe (recipes : List LearnedRecipe) (intent : CraftIntent)
    (process : CraftProcess) (catalog : List ItemDefinition)
    (inv : Option Inventory) (stockpile : List (String × ℚ)) (rand : EngineRandom) :
    Option (List Selection × Option (List ℚ)) × EngineRandom :=
  pickLoop catalog inv stockpile
    (List.insertionSort scoreGE (recipes.filter (fun r =>
      decide (r.intent = intent) && decide (r.process = process)))) rand

theorem trySlots_length {catalog inv stockpile} :
    ∀ {sigs : List String} {acc : List Selection} {r : EngineRandom}
      {sels : List Selection} {r' : EngineRandom},
      trySlots catalog inv stockpile sigs acc r = (some sels, r') →
      sels.length = acc.length + sigs.length := by
  intro sigs
  induction sigs with
  | nil =>
    intro acc r sels r' h
    simp only [trySlots, Prod.mk.injEq, Option.some.injEq] at h
    rw [← h.1]
    simp
  | cons sig rest ih =>
    intro acc r sels r' h
    simp only [trySlots] at h
    rcases hm : matchItemBySignature catalog inv stockpile r sig acc with ⟨oc, r1⟩
    rw [hm] at h
    match oc with
    | none => simp at h
    | some c =>
      dsimp only at h
      have := ih h
      rw [this]
      simp only [List.length_append, List.length_cons, List.length_nil]
      omega

theorem pickLoop_some_min_two {catalog inv stockpile} :
    ∀ {recipes : List LearnedRecipe} {r : EngineRandom}
      {res : List Selection × Option (List ℚ)} {r' : EngineRandom},
      pickLoop catalog inv stockpile recipes r = (some res, r') →
      2 ≤ res.1.length := by
  intro recipes
  induction recipes with
  | nil =>
    intro r res r' h
    simp only [pickLoop, Prod.mk.injEq] at h
    exact absurd h.1 (by simp)
  | cons rec rest ih =>
    intro r res r' h
    simp only [pickLoop] at h
    rcases ht : trySlots catalog inv stockpile rec.inputSignatures [] r with ⟨os, r1⟩
    rw [ht] at h
    match os with
    | none =>
      dsimp only at h
      exact ih h
    | some sels =>
      dsimp only at h
      by_cases h2 : 2 ≤ sels.length
      · rw [if_pos h2] at h
        simp only [Prod.mk.injEq, Option.some.injEq] at h
        rw [← h.1]
        exact h2
      · rw [if_neg h2] at h
        exact ih h

theorem pickLoop_short_none {catalog inv stockpile} :
    ∀ {recipes : List LearnedRecipe} {r : EngineRandom},
      (∀ rec ∈ recipes, rec.inputSignatures.length < 2) →
      (pickLoop catalog inv stockpile recipes r).1 = none := by
  intro recipes
  induction recipes with
  | nil => intro r _; rfl
  | cons rec rest ih =>
    intro r hshort
    simp only [pickLoop]
    rcases ht : trySlots catalog inv stockpile rec.inputSignatures [] r with ⟨os, r1⟩
    match os with
    | none =>
      dsimp only
      exact ih (fun x hx => hshort x (List.mem_cons_of_mem _ hx))
    | some sels =>
      dsimp only
      have hlen : sels.length = rec.inputSignatures.length := by
        have := trySlots_length ht
        simpa using this
      rw [if_neg (by
        rw [hlen]
        exact not_le.mpr (hshort rec (List.mem_cons_self _ _)))]
      exact ih (fun x hx => hshort x (List.mem_cons_of_mem _ hx))

/-- C10.  Whenever `pickLearnedRecipe` returns a non-null result, the
returned input selection has at least 2 items; and an agent whose matching
learned recipes all have fewer than 2 signature slots never gets a recall at
all, regardless of catalog, inventory, stockpile and RNG state. -/
theorem pickLearnedRecipe_min_two (recipes : List LearnedRecipe) (intent : CraftIntent)
    (process : CraftProcess) (catalog : List ItemDefinition)
    (inv : Option Inventory) (stockpile : List (String × ℚ)) (rand : EngineRandom)
    (res : List Selection × Option (List ℚ)) (r' : EngineRandom) :
    (pickLearnedRecipe recipes intent process catalog inv stockpile rand =
        (some res, r') → 2 ≤ res.1.length) ∧
    ((∀ rec ∈ recipes, rec.inputSignatures.length < 2) →
      (pickLearnedRecipe recipes intent process catalog inv stockpile rand).1 = none) := by
  constructor
  · intro h
    exact pickLoop_some_min_two h
  · intro hshort
    apply pickLoop_short_none
    intro rec hrec
    have hmem : rec ∈ recipes.filter (fun r =>
        decide (r.intent = intent) && decide (r.process = process)) :=
      (List.mem_insertionSort scoreGE).mp hrec
    exact hshort rec (List.mem_of_mem_filter hmem)

/-! ### Concrete recall scenario for the C10 witness -/

def wItem : ItemDefinition := { id := "a", name := "a", mix := [], signature := some "s1" }

def wRecipe : LearnedRecipe :=
  { intent := CraftIntent.food, process := CraftProcess.cook,
    inputSignatures := ["s1", "s1"], weights := none, score := 1 }

theorem wChoice0 : EngineRandom.choice ⟨0⟩ [wItem] = (wItem, ⟨49297⟩) := by
  have hseed : ((0 * 9301 + 49297) % 233280 : ℕ) = 49297 := by norm_num
  simp only [EngineRandom.choice, EngineRandom.next, hseed]
  have hfl : ⌊(((49297 : ℕ) : ℚ)) / 233280 * (([wItem] : List ItemDefinition).length : ℚ)⌋ = 0 := by
    simp only [List.length_singleton, Nat.cast_one, mul_one]
    rw [Int.floor_eq_iff]
    norm_num
  rw [hfl]
  rfl

theorem wChoice1 : EngineRandom.choice ⟨49297⟩ [wItem] = (wItem, ⟨165494⟩) := by
  have hseed : ((49297 * 9301 + 49297) % 233280 : ℕ) = 165494 := by norm_num
  simp only [EngineRandom.choice, EngineRandom.next, hseed]
  have hfl : ⌊(((165494 : ℕ) : ℚ)) / 233280 * (([wItem] : List ItemDefinition).length : ℚ)⌋ = 0 := by
    simp only [List.length_singleton, Nat.cast_one, mul_one]
    rw [Int.floor_eq_iff]
    norm_num
  rw [hfl]
  rfl

theorem wMatch (rand : EngineRandom) (rand' : EngineRandom) (sels : List Selection)
    (hcount : countSelection sels "a" SelSource.inventory < 5)
    (hch : EngineRandom.choice rand [wItem] = (wItem, rand')) :
    matchItemBySignature [wItem] (some [("a", 5)]) [] rand "s1" sels =
      (some ⟨wItem, SelSource.inventory⟩, rand') := by
  have hcand : ([wItem] : List ItemDefinition).filter (fun item =>
      decide (item.signature = some "s1") || decide (mixSignature item.mix = "s1")) =
      [wItem] := by
    simp only [List.filter_cons, List.filter_nil]
    rw [if_pos]
    rw [Bool.or_eq_true, decide_eq_true_eq]
    exact Or.inl rfl
  have hinvp : ([wItem] : List ItemDefinition).filter (fun item =>
      inventoryHas (some [("a", 5)]) item.id
        ((1 + countSelection sels item.id SelSource.inventory : ℕ) : ℚ)) = [wItem] := by
    simp only [List.filter_cons, List.filter_nil]
    rw [if_pos]
    rw [show wItem.id = "a" from rfl, inventoryHas, decide_eq_true_eq]
    simp only [inventoryGet, List.lookup,
      (by decide : (("a" : String) == "a") = true), Option.getD_some]
    have hn : (1 + countSelection sels "a" SelSource.inventory : ℕ) ≤ 5 := by omega
    have : ((1 + countSelection sels "a" SelSource.inventory : ℕ) : ℚ) ≤ ((5 : ℕ) : ℚ) := by
      exact_mod_cast hn
    calc ((1 + countSelection sels "a" SelSource.inventory : ℕ) : ℚ)
        ≤ ((5 : ℕ) : ℚ) := this
      _ = 5 := by norm_num
  simp only [matchItemBySignature, hcand, hinvp]
  rw [if_pos (by norm_num : 0 < ([wItem] : List ItemDefinition).length)]
  rw [hch]

theorem wTry :
    trySlots [wItem] (some [("a", 5)]) [] ["s1", "s1"] [] ⟨0⟩ =
      (some [⟨wItem, SelSource.inventory⟩, ⟨wItem, SelSource.inventory⟩], ⟨165494⟩) := by
  have hm1 : matchItemBySignature [wItem] (some [("a", 5)]) [] ⟨0⟩ "s1" [] =
      (some ⟨wItem, SelSource.inventory⟩, ⟨49297⟩) :=
    wMatch ⟨0⟩ ⟨49297⟩ [] (by decide) wChoice0
  have hm2 : matchItemBySignature [wItem] (some [("a", 5)]) [] ⟨49297⟩ "s1"
      [⟨wItem, SelSource.inventory⟩] = (some ⟨wItem, SelSource.inventory⟩, ⟨165494⟩) :=
    wMatch ⟨49297⟩ ⟨165494⟩ [⟨wItem, SelSource.inventory⟩] (by decide) wChoice1
  simp only [trySlots, List.nil_append, hm1, hm2, List.cons_append]

theorem wPick :
    pickLearnedRecipe [wRecipe] CraftIntent.food CraftProcess.cook [wItem]
        (some [("a", 5)]) [] ⟨0⟩ =
      (some ([⟨wItem, SelSource.inventory⟩, ⟨wItem, SelSource.inventory⟩], none),
        ⟨165494⟩) := by
  rw [pickLearnedRecipe]
  rw [show ([wRecipe].filter (fun r => decide (r.intent = CraftIntent.food) &&
      decide (r.process = CraftProcess.cook))) = [wRecipe] from by decide]
  rw [show List.insertionSort scoreGE [wRecipe] = [wRecipe] from rfl]
  simp only [pickLoop, show wRecipe.inputSignatures = ["s1", "s1"] from rfl, wTry]
  rfl

/-- C10 witness: in a concrete scenario a two-slot recipe is recalled with
exactly two selections, while an agent whose only matching recipe has a
single signature slot gets no recall even though that slot is satisfiable. -/
theorem pickLearnedRecipe_min_two_witness :
    2 ≤ ([(⟨wItem, SelSource.inventory⟩ : Selection), ⟨wItem, SelSource.inventory⟩],
        (none : Option (List ℚ))).1.length ∧
    (pickLearnedRecipe [⟨CraftIntent.food, CraftProcess.cook, ["s1"], none, 1⟩]
      CraftIntent.food CraftProcess.cook [wItem] (some [("a", 5)]) [] ⟨0⟩).1 = none :=
  ⟨(pickLearnedRecipe_min_two [wRecipe] CraftIntent.food CraftProcess.cook [wItem]
      (some [("a", 5)]) [] ⟨0⟩
      ([⟨wItem, SelSource.inventory⟩, ⟨wItem, SelSource.inventory⟩], none) ⟨165494⟩).1 wPick,
   (pickLearnedRecipe_min_two [⟨CraftIntent.food, CraftProcess.cook, ["s1"], none, 1⟩]
      CraftIntent.food CraftProcess.cook [wItem] (some [("a", 5)]) [] ⟨0⟩ ([], none) ⟨0⟩).2
    (by
      intro rec hrec
      rw [List.mem_singleton] at hrec
      rw [hrec]
      norm_num)⟩

end GuildMaster
